import Mathlib

/-!
Verification of go-common: `lazy_feature.LazyFuture` and the `slices` helpers.

A shallow embedding of two packages of the repository.

* `lazy_feature/lazy_future.go`: the struct `LazyFuture[T]`, its constructor
  `NewLazyFuture` and its method `Get`.  Go code runs against a mutable world;
  here every operation is a function that takes the world and returns the new
  one.  A Go function call either returns or panics, which `Outcome` records.
  A Go `error` is `Option E`, with `none` for `nil`; the zero value of a type is
  the `default` of its `Inhabited` instance.
* `slices/sllices.go`: `Map`, `Filter`, `Contains` and `NotContains` over
  slices, which are lists here (a nil slice and an empty slice are the same
  list), and the type `Set[T]` with `NewSet`, `ToSet`, `Has`, `Set` and
  `Delete`, a Go map being the nil map or the list of its keys.  What `==` and
  hashing do on the element type is a parameter, `Comparable`; a panic in this
  package is the result `none`.

The model is the view of one goroutine: calls happen one after another.  A
computation that never returns has no counterpart among total functions.

For a program that holds two instances whose computations may themselves call
`Get`, the instances are cells of a heap and the computations are scripts
(`Heap`, `Script`, `Heap.Get`); there a call that never ends, such as `Get` on
an instance from inside its own computation, has the result `none`.
-/

namespace LazyFeature

/-- How a call of a Go function ends: it returns its results, or it panics. -/
inductive Outcome (α : Type) where
  | returned (a : α)
  | panicked
  deriving DecidableEq, Repr

/-- The standard library's `sync.Once` as one goroutine sees it: the `done` flag.
The mutex that guards the slow path is not observable by a single caller. -/
structure Once where
  done : Bool
  deriving DecidableEq, Repr

/-- The standard library's `sync.Once.Do(f)` over a state `S` that `f` may change.
When `done` is set the call returns without calling `f`.  Otherwise `f` is
called, and `done` is set when the call ends, whether `f` returned or panicked
(the store is deferred); a panic of `f` propagates to the caller of `Do`. -/
def Once.Do {S : Type} (o : Once) (f : S → Outcome Unit × S) (s : S) :
    Outcome Unit × Once × S :=
  if o.done then (Outcome.returned (), o, s)
  else ((f s).1, { done := true }, (f s).2)

/-- The struct `LazyFuture[T]`: `compute` is a closure over the world `W`. -/
structure LazyFuture (W T E : Type) where
  compute : W → Outcome (T × Option E) × W
  value : T
  err : Option E
  once : Once

/-- The constructor `NewLazyFuture(compute)`: the struct literal sets `compute`
and leaves `value`, `err` and `once` at their zero values.  The world is
returned as it came. -/
def NewLazyFuture {W T E : Type} [Inhabited T]
    (compute : W → Outcome (T × Option E) × W) (w : W) : LazyFuture W T E × W :=
  ({ compute := compute, value := default, err := none, once := { done := false } }, w)

/-- The closure handed to `once.Do` in `Get`: `f.value, f.err = f.compute()`.
The assignment happens only when `compute` returns. -/
def LazyFuture.Get.body {W T E : Type} (s : LazyFuture W T E × W) :
    Outcome Unit × (LazyFuture W T E × W) :=
  match s.1.compute s.2 with
  | (Outcome.returned (v, e), w') => (Outcome.returned (), ({ s.1 with value := v, err := e }, w'))
  | (Outcome.panicked, w') => (Outcome.panicked, (s.1, w'))

/-- The method `Get`: `f.once.Do(func() { f.value, f.err = f.compute() })`
followed by `return f.value, f.err`.  A panic inside `Do` leaves `Get` before
the return statement. -/
def LazyFuture.Get {W T E : Type} (f : LazyFuture W T E) (w : W) :
    Outcome (T × Option E) × LazyFuture W T E × W :=
  match f.once.Do LazyFuture.Get.body (f, w) with
  | (Outcome.returned _, o, (g, w')) => (Outcome.returned (g.value, g.err), { g with once := o }, w')
  | (Outcome.panicked, o, (g, w')) => (Outcome.panicked, { g with once := o }, w')

/-- A caller that makes `n` calls of `Get` one after another on the same
instance (recovering if a call panics) and collects what each call gave. -/
def getN {W T E : Type} :
    Nat → LazyFuture W T E → W → List (Outcome (T × Option E)) × LazyFuture W T E × W
  | 0, f, w => ([], f, w)
  | n + 1, f, w =>
    ((f.Get w).1 :: (getN n (f.Get w).2.1 (f.Get w).2.2).1, (getN n (f.Get w).2.1 (f.Get w).2.2).2)

/-- A computation instrumented with an execution counter kept in the world:
each execution of `counted c` runs `c` and adds one to the counter. -/
def counted {W α : Type} (c : W → Outcome α × W) (s : W × Nat) : Outcome α × (W × Nat) :=
  ((c s.1).1, ((c s.1).2, s.2 + 1))

/-- Names the two instances of a program that holds two of them. -/
inductive Which where
  | first
  | second
  deriving DecidableEq, Repr

/-- Where the `sync.Once` of an instance stands when a computation may itself
call `Get`: `uncomputed` (done is 0, the mutex free), `computing` (done is 0,
the mutex held by the call that runs the computation), `done` (done is 1). -/
inductive Phase where
  | uncomputed
  | computing
  | done
  deriving DecidableEq, Repr

/-- The fields of one instance besides `compute`: `value`, `err` and the state
of `once`. -/
structure Cell (T E : Type) where
  value : T
  err : Option E
  phase : Phase
  deriving DecidableEq, Repr

/-- The heap of a program that holds two `LazyFuture` instances, and the world
their computations share.  The instances are separate allocations. -/
structure Heap (W T E : Type) where
  first : Cell T E
  second : Cell T E
  world : W

/-- The instance of that name. -/
def Heap.cell {W T E : Type} (h : Heap W T E) : Which → Cell T E
  | Which.first => h.first
  | Which.second => h.second

/-- Writes the fields of the instance of that name. -/
def Heap.setCell {W T E : Type} (h : Heap W T E) (i : Which) (c : Cell T E) : Heap W T E :=
  match i with
  | Which.first => { first := c, second := h.second, world := h.world }
  | Which.second => { first := h.first, second := c, world := h.world }

/-- The heap after the two constructor calls: both instances hold the zero value
and nil and are uncomputed; the world is as it came. -/
def NewHeap {W T E : Type} [Inhabited T] (w : W) : Heap W T E :=
  { first := { value := default, err := none, phase := Phase.uncomputed },
    second := { value := default, err := none, phase := Phase.uncomputed },
    world := w }

/-- A computation, as the closure given to `NewLazyFuture`, in a program that
holds the two instances: it returns or panics (`ret`), changes the world
(`act`), reads the world (`look`), or calls `Get` on one of the instances and
goes on with what the call gave, a pair or a panic it recovers from or passes on
(`get`).  The fields of `LazyFuture` are unexported: outside the package an
instance is reached through `Get` only. -/
inductive Script (W T E : Type) where
  | ret (r : Outcome (T × Option E))
  | act (f : W → W) (next : Script W T E)
  | look (next : W → Script W T E)
  | get (i : Which) (next : Outcome (T × Option E) → Script W T E)

/-- Runs a computation on the heap, `G` being what a call of `Get` does.  The
result `none` is a call that never ends: when a call of `Get` inside the
computation never ends, neither does the computation. -/
def Script.runWith {W T E : Type}
    (G : Which → Heap W T E → Option (Outcome (T × Option E)) × Heap W T E) :
    Script W T E → Heap W T E → Option (Outcome (T × Option E)) × Heap W T E
  | Script.ret r, h => (some r, h)
  | Script.act f next, h =>
    Script.runWith G next { first := h.first, second := h.second, world := f h.world }
  | Script.look next, h => Script.runWith G (next h.world) h
  | Script.get i next, h =>
    match G i h with
    | (some r, h') => Script.runWith G (next r) h'
    | (none, h') => (none, h')

/-- The heap when `once.Do` on the uncomputed instance `i` has taken the mutex:
the instance is computing. -/
def Heap.enter {W T E : Type} (h : Heap W T E) (i : Which) : Heap W T E :=
  h.setCell i (Cell.mk (h.cell i).value (h.cell i).err Phase.computing)

/-- The end of `Get` on the instance `i` once its computation is over: a returned
pair is stored, the instance is done and `Get` returns the pair; after a panic
the instance is done with its fields as they were and the panic goes on; a
computation that never ends leaves the instance computing. -/
def Heap.settle {W T E : Type} (i : Which) :
    Option (Outcome (T × Option E)) × Heap W T E →
      Option (Outcome (T × Option E)) × Heap W T E
  | (some (Outcome.returned (v, e)), h') =>
    (some (Outcome.returned (v, e)), h'.setCell i (Cell.mk v e Phase.done))
  | (some Outcome.panicked, h') =>
    (some Outcome.panicked,
      h'.setCell i (Cell.mk (h'.cell i).value (h'.cell i).err Phase.done))
  | (none, h') => (none, h')

/-- The method `Get` on the instance `i` of a heap whose computations are
`code`; `depth` bounds how many computations may start one inside the other
below this call, and 2 is enough for two instances.  On a done instance
`once.Do` returns at once and `Get` returns the cached pair.  On an instance
that is computing, the caller being inside that computation, `once.Do` waits
for a mutex its own goroutine holds: the call never ends.  On an uncomputed
instance `once.Do` takes the mutex (`enter`) and runs the closure
`f.value, f.err = f.compute()`, and `Get` ends as `settle` says. -/
def Heap.Get {W T E : Type} (code : Which → Script W T E) :
    Nat → Which → Heap W T E → Option (Outcome (T × Option E)) × Heap W T E
  | 0, i, h =>
    match (h.cell i).phase with
    | Phase.done => (some (Outcome.returned ((h.cell i).value, (h.cell i).err)), h)
    | Phase.computing => (none, h)
    | Phase.uncomputed => (none, h)
  | depth + 1, i, h =>
    match (h.cell i).phase with
    | Phase.done => (some (Outcome.returned ((h.cell i).value, (h.cell i).err)), h)
    | Phase.computing => (none, h)
    | Phase.uncomputed =>
      Heap.settle i ((code i).runWith (Heap.Get code depth) (h.enter i))

/-- A caller that makes the listed calls of `Get` in order, recovering when a
call panics; a call that never ends is the last one. -/
def Heap.run {W T E : Type} (code : Which → Script W T E) :
    List Which → Heap W T E → List (Option (Outcome (T × Option E))) × Heap W T E
  | [], h => ([], h)
  | i :: rest, h =>
    match Heap.Get code 2 i h with
    | (some r, h') => (some r :: (Heap.run code rest h').1, (Heap.run code rest h').2)
    | (none, h') => ([none], h')

/-- A computation over the world `W` set in a world that also holds a counter,
which it leaves alone. -/
def Script.lift {W T E : Type} : Script W T E → Script (W × Nat) T E
  | Script.ret r => Script.ret r
  | Script.act f next => Script.act (fun p => (f p.1, p.2)) (Script.lift next)
  | Script.look next => Script.look (fun p => Script.lift (next p.1))
  | Script.get i next => Script.get i (fun r => Script.lift (next r))

/-- A computation that adds one to the shared counter each time it is executed
and then goes on as `s`. -/
def Script.counted {W T E : Type} (s : Script W T E) : Script (W × Nat) T E :=
  Script.act (fun p => (p.1, p.2 + 1)) (Script.lift s)

/-- The computation makes no call of `Get`. -/
def Script.callsNoGet {W T E : Type} : Script W T E → Prop
  | Script.ret _ => True
  | Script.act _ next => Script.callsNoGet next
  | Script.look next => ∀ w, Script.callsNoGet (next w)
  | Script.get _ _ => False

/-- A closure over the world alone, as a computation of the heap program: it
reads the world, leaves the world the closure leaves, and ends as the closure
ends.  It makes no call of `Get`. -/
def Script.ofClosure {W T E : Type} (c : W → Outcome (T × Option E) × W) : Script W T E :=
  Script.look (fun w => Script.act (fun _ => (c w).2) (Script.ret (c w).1))

/-- The number of instances of the heap that are not uncomputed. -/
def Heap.started {W T E : Type} (h : Heap W T E) : Nat :=
  (if h.first.phase = Phase.uncomputed then 0 else 1)
    + (if h.second.phase = Phase.uncomputed then 0 else 1)

/-- From the heap `h` to the heap `h'` every instance that was computing or done
has kept its fields. -/
def Heap.Frozen {W T E : Type} (h h' : Heap W T E) : Prop :=
  ∀ j, (h.cell j).phase ≠ Phase.uncomputed → h'.cell j = h.cell j

/-- From the heap `h` to the heap `h'` the instances that were computing or done
have kept their fields, and the shared counter has grown by the number of
instances that have left the uncomputed state. -/
def Heap.Counted {W T E : Type} (h h' : Heap (W × Nat) T E) : Prop :=
  Heap.Frozen h h' ∧ h'.world.2 + h.started = h.world.2 + h'.started

/-- Example program: the computation of the first instance calls `Get` on the
second and returns 1; the computation of the second returns 2. -/
def relay : Which → Script Unit Nat String
  | Which.first => Script.get Which.second (fun _ => Script.ret (Outcome.returned (1, none)))
  | Which.second => Script.ret (Outcome.returned (2, none))

/-- Example computation: succeeds with 42. -/
def answer (w : Unit) : Outcome (Nat × Option String) × Unit :=
  (Outcome.returned (42, none), w)

/-- Example computation: fails, with the zero value next to the error. -/
def diskUnavailable (w : Unit) : Outcome (Nat × Option String) × Unit :=
  (Outcome.returned (0, some "disk unavailable"), w)

/-- Example computation: fails, with a value other than zero next to the error. -/
def halfDone (w : Unit) : Outcome (Nat × Option String) × Unit :=
  (Outcome.returned (7, some "disk unavailable"), w)

/-- Example computation: panics instead of returning. -/
def faulty (w : Unit) : Outcome (Nat × Option String) × Unit :=
  (Outcome.panicked, w)

end LazyFeature

namespace Slices

/-- The assignment `result[i] = x`: it panics (`none`) when `i` is out of range. -/
def assign {R : Type} (result : List R) (i : Nat) (x : R) : Option (List R) :=
  if i < result.length then some (result.set i x) else none

/-- The loop of `Map`, `for i, v := range slice { result[i] = mapper(v) }`, from
index `i` on, `slice` being what is left to visit. -/
def Map.loop {T R : Type} (mapper : T → R) : Nat → List T → List R → Option (List R)
  | _, [], result => some result
  | i, v :: rest, result =>
    match assign result i (mapper v) with
    | some result' => Map.loop mapper (i + 1) rest result'
    | none => none

/-- The function `Map`: `result := make([]R, len(slice))`, a slice of zero
values, then the loop, then `return result`. -/
def Map {T R : Type} [Inhabited R] (slice : List T) (mapper : T → R) : Option (List R) :=
  Map.loop mapper 0 slice (List.replicate slice.length default)

/-- The function `Filter`: `var result []T`, then for each `v` in order
`if predicate(v) { result = append(result, v) }`, then `return result`. -/
def Filter {T : Type} (slice : List T) (predicate : T → Bool) : List T :=
  slice.foldl (fun result v => if predicate v then result ++ [v] else result) []

/-- What Go's `==` and the hashing of map keys do on the values of a type `T`
that satisfies `comparable`.  `eq a b` is the result of `a == b`, `none` when
the comparison panics (two interface values of one dynamic type that is not
comparable).  `hashable a` tells whether `a` can be a map key; hashing panics
on a value that holds a value of a dynamic type that is not comparable.  The
comparison is symmetric and transitive but need not be reflexive (a NaN is not
`==` to itself), and it does not panic when one side is hashable. -/
structure Comparable (T : Type) where
  eq : T → T → Option Bool
  hashable : T → Bool
  eq_symm : ∀ a b, eq a b = eq b a
  eq_trans : ∀ a b c, eq a b = some true → eq b c = some true → eq a c = some true
  eq_of_hashable : ∀ a b, hashable a = true → eq a b ≠ none

/-- Whether `a == b` is true (it is not when the comparison is false or
panics). -/
def Comparable.same {T : Type} (C : Comparable T) (a b : T) : Bool :=
  decide (C.eq a b = some true)

/-- The type `int`, here the naturals: `==` is equality and every value is
hashable. -/
def intKeys : Comparable Nat where
  eq a b := some (decide (a = b))
  hashable _ := true
  eq_symm := by
    intro a b
    simp [eq_comm]
  eq_trans := by
    intro a b c h₁ h₂
    simp only [Option.some.injEq, decide_eq_true_eq] at h₁ h₂ ⊢
    omega
  eq_of_hashable := by
    intro a b _
    simp

/-- A `float64` as far as `==` goes: a NaN or a number. -/
inductive F64 where
  | nan
  | num (n : Int)
  deriving DecidableEq, Repr

/-- The type `float64`: a NaN is `==` to nothing, itself included; every value
is hashable. -/
def floatKeys : Comparable F64 where
  eq a b :=
    match a, b with
    | F64.num x, F64.num y => some (decide (x = y))
    | _, _ => some false
  hashable _ := true
  eq_symm := by
    intro a b
    cases a <;> cases b <;> simp [eq_comm]
  eq_trans := by
    intro a b c h₁ h₂
    cases a <;> cases b <;> cases c <;> simp at h₁ h₂ ⊢
    omega
  eq_of_hashable := by
    intro a b _
    cases a <;> cases b <;> simp

/-- An interface value (`any`) that holds an `int` or a `[]int`. -/
inductive Dyn where
  | int (n : Nat)
  | ints (xs : List Nat)
  deriving DecidableEq, Repr

/-- The type `any` over `Dyn`: two ints compare by value, values of different
dynamic types are not equal, comparing two slices panics, and a slice is not
hashable. -/
def anyKeys : Comparable Dyn where
  eq a b :=
    match a, b with
    | Dyn.int x, Dyn.int y => some (decide (x = y))
    | Dyn.ints _, Dyn.ints _ => none
    | _, _ => some false
  hashable a :=
    match a with
    | Dyn.int _ => true
    | Dyn.ints _ => false
  eq_symm := by
    intro a b
    cases a <;> cases b <;> simp [eq_comm]
  eq_trans := by
    intro a b c h₁ h₂
    cases a <;> cases b <;> cases c <;> simp at h₁ h₂ ⊢
    omega
  eq_of_hashable := by
    intro a b h
    cases a <;> cases b <;> simp at h ⊢

/-- The type `Set[T]`, that is `map[T]struct{}`.  A Go map value is either the
nil map, which is the zero value of the type, or a map made by `make`.  The
values being `struct{}`, a made map is the list of its keys, in the order in
which they were first stored. -/
inductive Set (T : Type) where
  | nil
  | made (keys : List T)

/-- The function `NewSet`: `make(map[T]struct{})`, a made map with no key. -/
def NewSet {T : Type} : Set T := Set.made []

/-- Storing under key `k` in the entries of a made map: the entry whose key is
`==` to `k` is overwritten, its key becoming `k`; when there is none a new
entry is added. -/
def Set.put {T : Type} (C : Comparable T) : List T → T → List T
  | [], k => [k]
  | k' :: rest, k => if C.same k' k = true then k :: rest else k' :: Set.put C rest k

/-- The statement `m[k] = struct{}{}`: it panics (`none`) on the nil map
("assignment to entry in nil map") and on a key that is not hashable; otherwise
it stores under `k`. -/
def Set.store {T : Type} (C : Comparable T) : Set T → T → Option (Set T)
  | Set.nil, _ => none
  | Set.made keys, k => if C.hashable k = true then some (Set.made (Set.put C keys k)) else none

/-- The builtin `len(m)`: the number of entries, 0 for the nil map. -/
def Set.len {T : Type} : Set T → Nat
  | Set.nil => 0
  | Set.made keys => keys.length

/-- The loop of `ToSet`, `for _, v := range slice { set[v] = struct{}{} }`,
`slice` being what is left to visit. -/
def ToSet.loop {T : Type} (C : Comparable T) : List T → Set T → Option (Set T)
  | [], set => some set
  | v :: rest, set =>
    match set.store C v with
    | some set' => ToSet.loop C rest set'
    | none => none

/-- The function `ToSet`: `set := make(Set[T])`, then the loop, then
`return set`. -/
def ToSet {T : Type} (C : Comparable T) (slice : List T) : Option (Set T) :=
  ToSet.loop C slice (Set.made [])

/-- The method `Has`: `_, ok := s[val]; return ok`.  The read panics (`none`)
on a key that is not hashable, whatever the map; otherwise the nil map has no
entry, and a made map has one when a key of it is `==` to `val`. -/
def Set.Has {T : Type} (C : Comparable T) (s : Set T) (val : T) : Option Bool :=
  if C.hashable val = true then
    match s with
    | Set.nil => some false
    | Set.made keys => some (keys.any (fun k => C.same k val))
  else none

set_option linter.dupNamespace false

/-- The method `Set`: `s[val] = struct{}{}` on the receiver's map. -/
def Set.Set {T : Type} (C : Comparable T) (s : Slices.Set T) (val : T) :
    Option (Slices.Set T) :=
  s.store C val

/-- The method `Delete`: `delete(s, val)`.  The builtin panics (`none`) on a key
that is not hashable, whatever the map; otherwise it is a no-op on the nil map
and removes from a made map the entry whose key is `==` to `val`. -/
def Set.Delete {T : Type} (C : Comparable T) (s : Slices.Set T) (val : T) :
    Option (Slices.Set T) :=
  if C.hashable val = true then
    match s with
    | Set.nil => some Set.nil
    | Set.made keys => some (Set.made (keys.filter (fun k => !C.same k val)))
  else none

/-- The function `Contains`: the loop evaluates `v == val` element by element;
it returns `true` at the first comparison that is true, panics (`none`) at a
comparison that panics, and returns `false` after the last element. -/
def Contains {T : Type} (C : Comparable T) : List T → T → Option Bool
  | [], _ => some false
  | v :: rest, val =>
    match C.eq v val with
    | none => none
    | some true => some true
    | some false => Contains C rest val

/-- The function `NotContains`: `return !Contains(slice, val)`; a panic of
`Contains` is a panic of `NotContains`. -/
def NotContains {T : Type} (C : Comparable T) (slice : List T) (val : T) : Option Bool :=
  (Contains C slice val).map (fun b => !b)

/-- The number of distinct elements of a slice, `==` telling elements apart: an
element counts unless a later element is `==` to it.  Stated from the words of
the specification, apart from the loop of `ToSet`. -/
def distinctCount {T : Type} (C : Comparable T) : List T → Nat
  | [] => 0
  | x :: rest =>
    (if rest.any (fun y => C.same y x) = true then 0 else 1) + distinctCount C rest

/-- The number of entries that storing the elements of `slice` one after another
adds to a made map with the keys `keys`: an element adds one unless a later
element or a key of the map is `==` to it. -/
def Set.fresh {T : Type} (C : Comparable T) (keys : List T) : List T → Nat
  | [] => 0
  | x :: rest =>
    (if (rest.any (fun y => C.same y x) || keys.any (fun k => C.same k x)) = true then 0 else 1)
      + Set.fresh C keys rest

end Slices

namespace LazyFeature

theorem Get_of_done {W T E : Type} (f : LazyFuture W T E) (w : W) (h : f.once.done = true) :
    f.Get w = (Outcome.returned (f.value, f.err), f, w) := by
  cases f with
  | mk c v e o =>
    cases o with
    | mk d =>
      simp only at h
      subst h
      simp [LazyFuture.Get, Once.Do]

theorem Get_done {W T E : Type} (f : LazyFuture W T E) (w : W) :
    (f.Get w).2.1.once.done = true := by
  by_cases h : f.once.done = true
  · rw [Get_of_done f w h]; exact h
  · simp only [LazyFuture.Get, Once.Do, h]
    rcases hc : (LazyFuture.Get.body (f, w)) with ⟨r, g, w'⟩
    cases r <;> simp

theorem Get_fresh_returned {W T E : Type} (f : LazyFuture W T E) (w : W) (v : T) (e : Option E)
    (h : f.once.done = false) (hc : (f.compute w).1 = Outcome.returned (v, e)) :
    f.Get w = (Outcome.returned (v, e),
      { compute := f.compute, value := v, err := e, once := { done := true } },
      (f.compute w).2) := by
  rcases hcw : f.compute w with ⟨r, w'⟩
  rw [hcw] at hc
  simp only at hc
  subst hc
  simp [LazyFuture.Get, Once.Do, h, LazyFuture.Get.body, hcw]

theorem Get_fresh_panicked {W T E : Type} (f : LazyFuture W T E) (w : W)
    (h : f.once.done = false) (hc : (f.compute w).1 = Outcome.panicked) :
    f.Get w = (Outcome.panicked,
      { compute := f.compute, value := f.value, err := f.err, once := { done := true } },
      (f.compute w).2) := by
  rcases hcw : f.compute w with ⟨r, w'⟩
  rw [hcw] at hc
  simp only at hc
  subst hc
  simp [LazyFuture.Get, Once.Do, h, LazyFuture.Get.body, hcw]

theorem Get_fresh_world {W T E : Type} (f : LazyFuture W T E) (w : W)
    (h : f.once.done = false) : (f.Get w).2.2 = (f.compute w).2 := by
  rcases hr : (f.compute w).1 with ⟨v, e⟩ | _
  · rw [Get_fresh_returned f w v e h hr]
  · rw [Get_fresh_panicked f w h hr]

theorem getN_of_done {W T E : Type} (n : Nat) (f : LazyFuture W T E) (w : W)
    (h : f.once.done = true) :
    getN n f w = (List.replicate n (Outcome.returned (f.value, f.err)), f, w) := by
  induction n with
  | zero => rfl
  | succ n ih => simp [getN, Get_of_done f w h, ih, List.replicate_succ]

theorem getN_world_of_done {W T E : Type} (n : Nat) (f : LazyFuture W T E) (w : W)
    (h : f.once.done = true) : (getN n f w).2.2 = w := by
  rw [getN_of_done n f w h]

theorem getN_succ_world {W T E : Type} (n : Nat) (f : LazyFuture W T E) (w : W)
    (h : f.once.done = false) : (getN (n + 1) f w).2.2 = (f.compute w).2 := by
  simp only [getN]
  rw [getN_world_of_done n _ _ (Get_done f w), Get_fresh_world f w h]

theorem getN_succ_returned {W T E : Type} (n : Nat) (f : LazyFuture W T E) (w : W) (v : T)
    (e : Option E) (h : f.once.done = false) (hc : (f.compute w).1 = Outcome.returned (v, e)) :
    getN (n + 1) f w = (List.replicate (n + 1) (Outcome.returned (v, e)),
      { compute := f.compute, value := v, err := e, once := { done := true } },
      (f.compute w).2) := by
  simp only [getN, Get_fresh_returned f w v e h hc]
  rw [getN_of_done n _ _ rfl]
  simp [List.replicate_succ]

/-- C1: for every computation `c`, run with an execution counter that starts at
`k`, and every number `n` of `Get` calls made one after another on the instance
freshly built by `NewLazyFuture`: if `n = 0` the counter is still `k` and the
world is untouched (0 executions), and if `n ≥ 1` the counter is `k + 1` and the
world is the one a single execution of `c` leaves (exactly 1 execution),
whatever `c` returns and whether or not it panics. -/
theorem computation_runs_zero_or_one_time {W T E : Type} [Inhabited T]
    (c : W → Outcome (T × Option E) × W) (w : W) (k n : Nat) :
    (getN n (NewLazyFuture (counted c) (w, k)).1 (NewLazyFuture (counted c) (w, k)).2).2.2
      = if n = 0 then (w, k) else ((c w).2, k + 1) := by
  cases n with
  | zero => rfl
  | succ n =>
    rw [getN_succ_world n _ _ rfl]
    simp [NewLazyFuture, counted]

/-- C2: if the execution of the computation `c` returns the pair `(v, e)`, then
the `n` calls of `Get` made on the instance built from `c` return `(v, e)` each,
the first call as well as every later one, so no two calls return different
pairs. -/
theorem every_Get_returns_the_computed_pair {W T E : Type} [Inhabited T]
    (c : W → Outcome (T × Option E) × W) (w : W) (v : T) (e : Option E)
    (h : (c w).1 = Outcome.returned (v, e)) (n : Nat) :
    (getN n (NewLazyFuture c w).1 (NewLazyFuture c w).2).1
        = List.replicate n (Outcome.returned (v, e)) ∧
      ∀ r₁ ∈ (getN n (NewLazyFuture c w).1 (NewLazyFuture c w).2).1,
        ∀ r₂ ∈ (getN n (NewLazyFuture c w).1 (NewLazyFuture c w).2).1, r₁ = r₂ := by
  have hres : (getN n (NewLazyFuture c w).1 (NewLazyFuture c w).2).1
      = List.replicate n (Outcome.returned (v, e)) := by
    cases n with
    | zero => rfl
    | succ n => rw [getN_succ_returned n _ _ v e rfl h]
  refine ⟨hres, ?_⟩
  rw [hres]
  intro r₁ h₁ r₂ h₂
  rw [List.eq_of_mem_replicate h₁, List.eq_of_mem_replicate h₂]

/-- Witness of C2 at the computation that returns `(42, nil)`, with five calls. -/
theorem every_Get_returns_the_computed_pair_witness :
    (answer ()).1 = Outcome.returned (42, none) ∧
      ((getN 5 (NewLazyFuture answer ()).1 (NewLazyFuture answer ()).2).1
          = List.replicate 5 (Outcome.returned (42, none)) ∧
        ∀ r₁ ∈ (getN 5 (NewLazyFuture answer ()).1 (NewLazyFuture answer ()).2).1,
          ∀ r₂ ∈ (getN 5 (NewLazyFuture answer ()).1 (NewLazyFuture answer ()).2).1, r₁ = r₂) :=
  ⟨rfl, every_Get_returns_the_computed_pair answer () 42 none rfl 5⟩

/-- C3: if the first execution of the computation `c` returns a non-nil error
`e` (next to some value `v`), then the first `Get` returns that error, the
execution counter stands at one more than before, and any number `n` of later
`Get` calls on the same instance return `(v, e)` each and leave the instance and
the world, execution counter included, as the first call left them: the failed
computation is not run again. -/
theorem failure_is_cached_and_never_retried {W T E : Type} [Inhabited T]
    (c : W → Outcome (T × Option E) × W) (w : W) (k : Nat) (v : T) (e : E)
    (h : (c w).1 = Outcome.returned (v, some e)) (n : Nat) :
    ((NewLazyFuture (counted c) (w, k)).1.Get (NewLazyFuture (counted c) (w, k)).2).1
        = Outcome.returned (v, some e) ∧
      ((NewLazyFuture (counted c) (w, k)).1.Get (NewLazyFuture (counted c) (w, k)).2).2.2.2
        = k + 1 ∧
      getN n ((NewLazyFuture (counted c) (w, k)).1.Get (NewLazyFuture (counted c) (w, k)).2).2.1
          ((NewLazyFuture (counted c) (w, k)).1.Get (NewLazyFuture (counted c) (w, k)).2).2.2
        = (List.replicate n (Outcome.returned (v, some e)),
          ((NewLazyFuture (counted c) (w, k)).1.Get (NewLazyFuture (counted c) (w, k)).2).2.1,
          ((NewLazyFuture (counted c) (w, k)).1.Get (NewLazyFuture (counted c) (w, k)).2).2.2) := by
  have hc : ((NewLazyFuture (counted c) (w, k)).1.compute
      (NewLazyFuture (counted c) (w, k)).2).1 = Outcome.returned (v, some e) := h
  rw [Get_fresh_returned _ _ v (some e) rfl hc]
  refine ⟨rfl, rfl, ?_⟩
  rw [getN_of_done n _ _ rfl]

/-- Witness of C3 at the computation that fails with "disk unavailable", with
the counter starting at 0 and four later calls. -/
theorem failure_is_cached_and_never_retried_witness :
    (diskUnavailable ()).1 = Outcome.returned (0, some "disk unavailable") ∧
      (((NewLazyFuture (counted diskUnavailable) ((), 0)).1.Get
          (NewLazyFuture (counted diskUnavailable) ((), 0)).2).1
        = Outcome.returned (0, some "disk unavailable") ∧
      ((NewLazyFuture (counted diskUnavailable) ((), 0)).1.Get
          (NewLazyFuture (counted diskUnavailable) ((), 0)).2).2.2.2 = 0 + 1 ∧
      getN 4 ((NewLazyFuture (counted diskUnavailable) ((), 0)).1.Get
            (NewLazyFuture (counted diskUnavailable) ((), 0)).2).2.1
          ((NewLazyFuture (counted diskUnavailable) ((), 0)).1.Get
            (NewLazyFuture (counted diskUnavailable) ((), 0)).2).2.2
        = (List.replicate 4 (Outcome.returned (0, some "disk unavailable")),
          ((NewLazyFuture (counted diskUnavailable) ((), 0)).1.Get
            (NewLazyFuture (counted diskUnavailable) ((), 0)).2).2.1,
          ((NewLazyFuture (counted diskUnavailable) ((), 0)).1.Get
            (NewLazyFuture (counted diskUnavailable) ((), 0)).2).2.2)) :=
  ⟨rfl, failure_is_cached_and_never_retried diskUnavailable () 0 0 "disk unavailable" rfl 4⟩

/-- C4, the claim as stated fails: the computation `halfDone` returns the value 7
next to a non-nil error, and `Get` on the instance built from it returns 7 next
to that error, not the zero value of the type. -/
theorem Get_keeps_the_value_beside_the_error :
    (halfDone ()).1 = Outcome.returned (7, some "disk unavailable") ∧
      ((NewLazyFuture halfDone ()).1.Get (NewLazyFuture halfDone ()).2).1
        = Outcome.returned (7, some "disk unavailable") ∧
      ((NewLazyFuture halfDone ()).1.Get (NewLazyFuture halfDone ()).2).1
        ≠ Outcome.returned (default, some "disk unavailable") := by
  decide

/-- C4 as amended: if the execution of the computation `c` returns `(v, e)`,
with `e` a failure or nil, then every one of the `n + 1` calls of `Get` on the
instance built from `c` returns `(v, e)`, the value being the one the
computation returned; the calls return the zero value next to `e` exactly when
`v` is the zero value. -/
theorem Get_returns_the_value_the_computation_returned {W T E : Type} [Inhabited T]
    (c : W → Outcome (T × Option E) × W) (w : W) (v : T) (e : Option E)
    (h : (c w).1 = Outcome.returned (v, e)) (n : Nat) :
    (∀ r ∈ (getN (n + 1) (NewLazyFuture c w).1 (NewLazyFuture c w).2).1,
        r = Outcome.returned (v, e)) ∧
      ((∀ r ∈ (getN (n + 1) (NewLazyFuture c w).1 (NewLazyFuture c w).2).1,
        r = Outcome.returned (default, e)) ↔ v = default) := by
  have hres : (getN (n + 1) (NewLazyFuture c w).1 (NewLazyFuture c w).2).1
      = List.replicate (n + 1) (Outcome.returned (v, e)) := by
    rw [getN_succ_returned n _ _ v e rfl h]
  rw [hres]
  refine ⟨fun r hr => List.eq_of_mem_replicate hr, ?_, ?_⟩
  · intro hall
    have h0 := hall (Outcome.returned (v, e)) (by simp [List.replicate_succ])
    injection h0 with h1
    exact (Prod.mk.inj h1).1
  · intro hv r hr
    rw [List.eq_of_mem_replicate hr, hv]

/-- Witness of the amended C4 at `halfDone`, with three calls. -/
theorem Get_returns_the_value_the_computation_returned_witness :
    (halfDone ()).1 = Outcome.returned (7, some "disk unavailable") ∧
      ((∀ r ∈ (getN (2 + 1) (NewLazyFuture halfDone ()).1 (NewLazyFuture halfDone ()).2).1,
          r = Outcome.returned (7, some "disk unavailable")) ∧
        ((∀ r ∈ (getN (2 + 1) (NewLazyFuture halfDone ()).1 (NewLazyFuture halfDone ()).2).1,
          r = Outcome.returned (default, some "disk unavailable")) ↔ 7 = default)) :=
  ⟨rfl, Get_returns_the_value_the_computation_returned halfDone () 7
    (some "disk unavailable") rfl 2⟩

/-- C5: on an instance whose computation has completed (`once.done` is set), a
call of `Get` returns the cached pair and leaves the instance and the world as
they were, so the computation is not executed and value, error and done flag
are unchanged; the instance is still done after the call; and the same holds
for any number `n` of further calls. -/
theorem Get_on_done_instance_changes_nothing {W T E : Type}
    (f : LazyFuture W T E) (w : W) (h : f.once.done = true) (n : Nat) :
    f.Get w = (Outcome.returned (f.value, f.err), f, w) ∧
      (f.Get w).2.1.once.done = true ∧
      getN n f w = (List.replicate n (Outcome.returned (f.value, f.err)), f, w) :=
  ⟨Get_of_done f w h, Get_done f w, getN_of_done n f w h⟩

/-- Witness of C5 at a done instance that caches `(42, nil)`, its computation
counted from 3, with two further calls. -/
theorem Get_on_done_instance_changes_nothing_witness :
    (LazyFuture.mk (counted answer) 42 none (Once.mk true)).once.done = true ∧
      ((LazyFuture.mk (counted answer) 42 none (Once.mk true)).Get ((), 3)
          = (Outcome.returned (42, none),
            LazyFuture.mk (counted answer) 42 none (Once.mk true), ((), 3)) ∧
        ((LazyFuture.mk (counted answer) 42 none (Once.mk true)).Get ((), 3)).2.1.once.done
          = true ∧
        getN 2 (LazyFuture.mk (counted answer) 42 none (Once.mk true)) ((), 3)
          = (List.replicate 2 (Outcome.returned (42, none)),
            LazyFuture.mk (counted answer) 42 none (Once.mk true), ((), 3))) :=
  ⟨rfl, Get_on_done_instance_changes_nothing
    (LazyFuture.mk (counted answer) 42 none (Once.mk true)) ((), 3) rfl 2⟩

/-- C6: for every computation `c`, `NewLazyFuture` stores `c` in the new
instance and returns the world as it was; with `c` counted from `k` the
execution counter is still `k` (0 executions); the new instance is not done,
its cached value is the zero value of `T` and its cached error is nil. -/
theorem NewLazyFuture_performs_no_work {W T E : Type} [Inhabited T]
    (c : W → Outcome (T × Option E) × W) (w : W) (k : Nat) :
    (NewLazyFuture c w).1.compute = c ∧
      (NewLazyFuture c w).2 = w ∧
      (NewLazyFuture (counted c) (w, k)).2 = (w, k) ∧
      (NewLazyFuture c w).1.once.done = false ∧
      (NewLazyFuture c w).1.value = default ∧
      (NewLazyFuture c w).1.err = none :=
  ⟨rfl, rfl, rfl, rfl, rfl, rfl⟩

end LazyFeature

namespace Slices

theorem assign_append {R : Type} (filled : List R) (x y : R) (pending : List R) :
    assign (filled ++ x :: pending) filled.length y = some ((filled ++ [y]) ++ pending) := by
  simp [assign]

theorem Map_loop_spec {T R : Type} (mapper : T → R) (rest : List T) :
    ∀ (filled pending : List R), pending.length = rest.length →
      Map.loop mapper filled.length rest (filled ++ pending) = some (filled ++ rest.map mapper) := by
  induction rest with
  | nil =>
    intro filled pending hlen
    have hp : pending = [] := List.eq_nil_of_length_eq_zero hlen
    subst hp
    rfl
  | cons v rest ih =>
    intro filled pending hlen
    cases pending with
    | nil => simp at hlen
    | cons x pending =>
      have hlen' : pending.length = rest.length := by simpa using hlen
      have hstep := ih (filled ++ [mapper v]) pending hlen'
      simp only [List.length_append, List.length_singleton] at hstep
      simp only [Map.loop, assign_append, hstep]
      simp

theorem Filter_loop_spec {T : Type} (predicate : T → Bool) (slice : List T) :
    ∀ acc : List T,
      slice.foldl (fun result v => if predicate v then result ++ [v] else result) acc
        = acc ++ slice.filter predicate := by
  induction slice with
  | nil => intro acc; simp
  | cons v rest ih =>
    intro acc
    cases hv : predicate v <;> simp [List.foldl_cons, List.filter_cons, hv, ih]

/-- C9: for every slice and every mapper, `Map` returns (no index goes out of
range) a slice that is the list map of `mapper` over the input: it has the
length of the input and its `i`-th element is `mapper` applied to the `i`-th
input element, for every index `i`; on the empty slice it returns the empty
slice. -/
theorem Map_is_list_map {T R : Type} [Inhabited R] (slice : List T) (mapper : T → R) :
    ∃ result, Map slice mapper = some result ∧
      result = slice.map mapper ∧
      result.length = slice.length ∧
      (∀ i : Nat, result[i]? = (slice[i]?).map mapper) ∧
      Map ([] : List T) mapper = some [] := by
  refine ⟨slice.map mapper, ?_, rfl, List.length_map slice mapper, ?_, rfl⟩
  · have h := Map_loop_spec mapper slice [] (List.replicate slice.length default) (by simp)
    simpa [Map] using h
  · intro i
    simp

/-- C10: for every slice and predicate, `Filter` returns the list filter of the
slice: a sublist of the input (original order, no element repeated beyond its
occurrences), every element of which satisfies the predicate, which contains
every input element that satisfies the predicate, and which has as many
elements as the input has elements satisfying the predicate. -/
theorem Filter_is_list_filter {T : Type} (slice : List T) (predicate : T → Bool) :
    Filter slice predicate = slice.filter predicate ∧
      List.Sublist (Filter slice predicate) slice ∧
      (∀ x ∈ Filter slice predicate, predicate x = true) ∧
      (∀ x ∈ slice, predicate x = true → x ∈ Filter slice predicate) ∧
      (Filter slice predicate).length = slice.countP predicate := by
  have h : Filter slice predicate = slice.filter predicate := by
    simpa [Filter] using Filter_loop_spec predicate slice []
  rw [h]
  refine ⟨rfl, List.filter_sublist slice, ?_, ?_, ?_⟩
  · intro x hx
    exact (List.mem_filter.mp hx).2
  · intro x hx hp
    exact List.mem_filter.mpr ⟨hx, hp⟩
  · exact (List.countP_eq_length_filter predicate slice).symm

end Slices

namespace LazyFeature

/-- C15, the claim as stated fails: the computation `faulty` panics; the first
`Get` on the instance built from it panics, the instance is done after that
call, and the next `Get` returns the pair (0, nil) instead of hanging. -/
theorem Get_after_a_panic_returns :
    (faulty ()).1 = Outcome.panicked ∧
      ((NewLazyFuture faulty ()).1.Get (NewLazyFuture faulty ()).2).1 = Outcome.panicked ∧
      ((NewLazyFuture faulty ()).1.Get (NewLazyFuture faulty ()).2).2.1.once.done = true ∧
      (((NewLazyFuture faulty ()).1.Get (NewLazyFuture faulty ()).2).2.1.Get
          ((NewLazyFuture faulty ()).1.Get (NewLazyFuture faulty ()).2).2.2).1
        = Outcome.returned (0, none) := by
  decide

/-- C15 as amended: if the computation `c` panics during its one execution, the
first `Get` on the fresh instance panics, the execution counter stands at one
more than before, and the instance is done with its cached value and error never
assigned; any number `n` of later `Get` calls return the pair (zero value, nil)
each and leave the instance and the world, execution counter included, as the
first call left them.  No later call fails to return. -/
theorem panic_leaves_the_instance_done {W T E : Type} [Inhabited T]
    (c : W → Outcome (T × Option E) × W) (w : W) (k : Nat)
    (h : (c w).1 = Outcome.panicked) (n : Nat) :
    ((NewLazyFuture (counted c) (w, k)).1.Get (NewLazyFuture (counted c) (w, k)).2).1
        = Outcome.panicked ∧
      ((NewLazyFuture (counted c) (w, k)).1.Get (NewLazyFuture (counted c) (w, k)).2).2.1.once.done
        = true ∧
      ((NewLazyFuture (counted c) (w, k)).1.Get (NewLazyFuture (counted c) (w, k)).2).2.2.2
        = k + 1 ∧
      getN n ((NewLazyFuture (counted c) (w, k)).1.Get (NewLazyFuture (counted c) (w, k)).2).2.1
          ((NewLazyFuture (counted c) (w, k)).1.Get (NewLazyFuture (counted c) (w, k)).2).2.2
        = (List.replicate n (Outcome.returned (default, none)),
          ((NewLazyFuture (counted c) (w, k)).1.Get (NewLazyFuture (counted c) (w, k)).2).2.1,
          ((NewLazyFuture (counted c) (w, k)).1.Get (NewLazyFuture (counted c) (w, k)).2).2.2) := by
  have hc : ((NewLazyFuture (counted c) (w, k)).1.compute
      (NewLazyFuture (counted c) (w, k)).2).1 = Outcome.panicked := h
  rw [Get_fresh_panicked _ _ rfl hc]
  refine ⟨rfl, rfl, rfl, ?_⟩
  rw [getN_of_done n _ _ rfl]
  rfl

/-- Witness of the amended C15 at the computation `faulty`, with the counter
starting at 0 and three later calls. -/
theorem panic_leaves_the_instance_done_witness :
    (faulty ()).1 = Outcome.panicked ∧
      (((NewLazyFuture (counted faulty) ((), 0)).1.Get
          (NewLazyFuture (counted faulty) ((), 0)).2).1 = Outcome.panicked ∧
      ((NewLazyFuture (counted faulty) ((), 0)).1.Get
          (NewLazyFuture (counted faulty) ((), 0)).2).2.1.once.done = true ∧
      ((NewLazyFuture (counted faulty) ((), 0)).1.Get
          (NewLazyFuture (counted faulty) ((), 0)).2).2.2.2 = 0 + 1 ∧
      getN 3 ((NewLazyFuture (counted faulty) ((), 0)).1.Get
            (NewLazyFuture (counted faulty) ((), 0)).2).2.1
          ((NewLazyFuture (counted faulty) ((), 0)).1.Get
            (NewLazyFuture (counted faulty) ((), 0)).2).2.2
        = (List.replicate 3 (Outcome.returned (default, none)),
          ((NewLazyFuture (counted faulty) ((), 0)).1.Get
            (NewLazyFuture (counted faulty) ((), 0)).2).2.1,
          ((NewLazyFuture (counted faulty) ((), 0)).1.Get
            (NewLazyFuture (counted faulty) ((), 0)).2).2.2)) :=
  ⟨rfl, panic_leaves_the_instance_done faulty () 0 rfl 3⟩

end LazyFeature

namespace Slices

theorem same_symm {T : Type} (C : Comparable T) (a b : T) : C.same a b = C.same b a := by
  simp only [Comparable.same, C.eq_symm a b]

theorem same_trans {T : Type} (C : Comparable T) (a b c : T)
    (h₁ : C.same a b = true) (h₂ : C.same b c = true) : C.same a c = true := by
  simp only [Comparable.same, decide_eq_true_eq] at h₁ h₂ ⊢
  exact C.eq_trans a b c h₁ h₂

theorem same_congr_left {T : Type} (C : Comparable T) (a b c : T)
    (h : C.same a b = true) : C.same a c = C.same b c := by
  cases hb : C.same b c with
  | true => exact same_trans C a b c h hb
  | false =>
    cases ha : C.same a c with
    | false => rfl
    | true =>
      have hba : C.same b a = true := by rw [same_symm]; exact h
      rw [same_trans C b a c hba ha] at hb
      exact absurd hb (by simp)

theorem same_congr_right {T : Type} (C : Comparable T) (a b c : T)
    (h : C.same a b = true) : C.same c a = C.same c b := by
  rw [same_symm C c a, same_symm C c b]
  exact same_congr_left C a b c h

theorem eq_of_not_same {T : Type} (C : Comparable T) (a b : T)
    (ha : C.hashable a = true) (h : C.same a b = false) : C.eq a b = some false := by
  have hne := C.eq_of_hashable a b ha
  simp only [Comparable.same, decide_eq_false_iff_not] at h
  cases hab : C.eq a b with
  | none => exact absurd hab hne
  | some r =>
    cases r with
    | false => rfl
    | true => exact absurd hab h

theorem Contains_of_no_panic {T : Type} (C : Comparable T) (slice : List T) (val : T)
    (h : ∀ x ∈ slice, C.eq x val ≠ none) :
    Contains C slice val = some (slice.any (fun x => C.same x val)) := by
  induction slice with
  | nil => rfl
  | cons v rest ih =>
    have hv := h v (List.mem_cons_self v rest)
    have hrest := ih (fun x hx => h x (List.mem_cons_of_mem v hx))
    cases hc : C.eq v val with
    | none => exact absurd hc hv
    | some r =>
      cases r with
      | true => simp [Contains, hc, Comparable.same]
      | false => simp [Contains, hc, Comparable.same, hrest]

theorem Contains_eq_none_iff {T : Type} (C : Comparable T) (slice : List T) (val : T) :
    Contains C slice val = none ↔
      ∃ before x after, slice = before ++ x :: after ∧
        (∀ y ∈ before, C.eq y val = some false) ∧ C.eq x val = none := by
  induction slice with
  | nil => simp [Contains]
  | cons v rest ih =>
    cases hc : C.eq v val with
    | none =>
      simp only [Contains, hc, true_iff]
      exact ⟨[], v, rest, rfl, by simp, hc⟩
    | some r =>
      cases r with
      | true =>
        simp only [Contains, hc]
        refine ⟨fun h => absurd h (by simp), ?_⟩
        rintro ⟨before, x, after, hsplit, hbefore, hx⟩
        cases before with
        | nil =>
          simp only [List.nil_append, List.cons.injEq] at hsplit
          rw [← hsplit.1, hc] at hx
          exact absurd hx (by simp)
        | cons y before =>
          simp only [List.cons_append, List.cons.injEq] at hsplit
          have hy := hbefore y (List.mem_cons_self y before)
          rw [← hsplit.1, hc] at hy
          exact absurd hy (by simp)
      | false =>
        simp only [Contains, hc]
        rw [ih]
        constructor
        · rintro ⟨before, x, after, hsplit, hbefore, hx⟩
          refine ⟨v :: before, x, after, by simp [hsplit], ?_, hx⟩
          intro y hy
          rcases List.mem_cons.mp hy with rfl | hy'
          · exact hc
          · exact hbefore y hy'
        · rintro ⟨before, x, after, hsplit, hbefore, hx⟩
          cases before with
          | nil =>
            simp only [List.nil_append, List.cons.injEq] at hsplit
            rw [← hsplit.1, hc] at hx
            exact absurd hx (by simp)
          | cons y before =>
            simp only [List.cons_append, List.cons.injEq] at hsplit
            exact ⟨before, x, after, hsplit.2,
              fun z hz => hbefore z (List.mem_cons_of_mem y hz), hx⟩

theorem Contains_eq_true_imp {T : Type} (C : Comparable T) (slice : List T) (val : T)
    (h : Contains C slice val = some true) : ∃ x ∈ slice, C.eq x val = some true := by
  induction slice with
  | nil => simp [Contains] at h
  | cons v rest ih =>
    cases hc : C.eq v val with
    | none => simp [Contains, hc] at h
    | some r =>
      cases r with
      | true => exact ⟨v, List.mem_cons_self v rest, hc⟩
      | false =>
        simp only [Contains, hc] at h
        rcases ih h with ⟨x, hx, hxv⟩
        exact ⟨x, List.mem_cons_of_mem v hx, hxv⟩

theorem Contains_eq_false_iff {T : Type} (C : Comparable T) (slice : List T) (val : T) :
    Contains C slice val = some false ↔ ∀ x ∈ slice, C.eq x val = some false := by
  induction slice with
  | nil => simp [Contains]
  | cons v rest ih =>
    cases hc : C.eq v val with
    | none => simp [Contains, hc]
    | some r =>
      cases r with
      | true => simp [Contains, hc]
      | false => simp [Contains, hc, ih]

/-- C11, the claim as stated fails: `Contains` on the slice `[]any{[]int{1}}`
and the value `[]int{1}` evaluates `v == val` on two slices held in interface
values, which panics, so neither `Contains` nor `NotContains` returns a
boolean. -/
theorem Contains_panics_on_uncomparable_values :
    Contains anyKeys [Dyn.ints [1]] (Dyn.ints [1]) = none ∧
      NotContains anyKeys [Dyn.ints [1]] (Dyn.ints [1]) = none ∧
      ¬ ∃ b, Contains anyKeys [Dyn.ints [1]] (Dyn.ints [1]) = some b ∧
        (b = true ↔ ∃ x ∈ [Dyn.ints [1]], anyKeys.eq x (Dyn.ints [1]) = some true) := by
  refine ⟨by decide, by decide, ?_⟩
  rintro ⟨b, hb, _⟩
  have hnone : Contains anyKeys [Dyn.ints [1]] (Dyn.ints [1]) = none := by decide
  rw [hnone] at hb
  exact absurd hb (by simp)

/-- C11 as amended: for every slice and value, when no comparison `v == val` of
an element with the value panics, `Contains` returns a boolean that is true
exactly when some element of the slice is `==` to the value, and `NotContains`
returns its negation; `Contains` is false on the empty slice; `Contains` panics
exactly when a comparison panics and every element before it is not `==` to the
value; `NotContains` panics exactly when `Contains` does.  Whenever `Contains`
returns true some element is `==` to the value, and it returns false exactly
when every comparison is false. -/
theorem Contains_iff_some_element_equals {T : Type} (C : Comparable T)
    (slice : List T) (val : T) :
    ((∀ x ∈ slice, C.eq x val ≠ none) →
        ∃ b, Contains C slice val = some b ∧
          (b = true ↔ ∃ x ∈ slice, C.eq x val = some true) ∧
          NotContains C slice val = some (!b)) ∧
      Contains C ([] : List T) val = some false ∧
      (Contains C slice val = none ↔
        ∃ before x after, slice = before ++ x :: after ∧
          (∀ y ∈ before, C.eq y val = some false) ∧ C.eq x val = none) ∧
      (NotContains C slice val = none ↔ Contains C slice val = none) ∧
      (Contains C slice val = some true → ∃ x ∈ slice, C.eq x val = some true) ∧
      (Contains C slice val = some false ↔ ∀ x ∈ slice, C.eq x val = some false) := by
  refine ⟨?_, rfl, Contains_eq_none_iff C slice val, ?_, Contains_eq_true_imp C slice val,
    Contains_eq_false_iff C slice val⟩
  · intro h
    refine ⟨slice.any (fun x => C.same x val), Contains_of_no_panic C slice val h, ?_, ?_⟩
    · simp [Comparable.same]
    · simp [NotContains, Contains_of_no_panic C slice val h]
  · simp [NotContains]

/-- Witness of the amended C11 on the ints 1, 2, 3 and the value 2, where no
comparison panics; and on the floats: a NaN is not contained in the slice that
holds it, no element being `==` to it. -/
theorem Contains_iff_some_element_equals_witness :
    ((∀ x ∈ [1, 2, 3], intKeys.eq x 2 ≠ none) ∧
      ∃ b, Contains intKeys [1, 2, 3] 2 = some b ∧
        (b = true ↔ ∃ x ∈ [1, 2, 3], intKeys.eq x 2 = some true) ∧
        NotContains intKeys [1, 2, 3] 2 = some (!b)) ∧
      Contains intKeys [1, 2, 3] 2 = some true ∧
      Contains floatKeys [F64.nan] F64.nan = some false :=
  ⟨⟨by decide,
    (Contains_iff_some_element_equals intKeys [1, 2, 3] 2).1 (by decide)⟩,
    by decide, by decide⟩

theorem any_put {T : Type} (C : Comparable T) (keys : List T) (v w : T) :
    (Set.put C keys v).any (fun k => C.same k w)
      = (keys.any (fun k => C.same k w) || C.same v w) := by
  induction keys with
  | nil => simp [Set.put]
  | cons k rest ih =>
    by_cases hk : C.same k v = true
    · simp only [Set.put, hk, if_true, List.any_cons]
      rw [same_congr_left C k v w hk]
      cases C.same v w <;> simp
    · rw [Set.put, if_neg hk, List.any_cons, List.any_cons, ih, Bool.or_assoc]

theorem put_of_not_any {T : Type} (C : Comparable T) (keys : List T) (v : T)
    (h : keys.any (fun k => C.same k v) = false) : Set.put C keys v = keys ++ [v] := by
  induction keys with
  | nil => rfl
  | cons k rest ih =>
    simp only [List.any_cons, Bool.or_eq_false_iff] at h
    simp [Set.put, h.1, ih h.2]

theorem length_put_of_any {T : Type} (C : Comparable T) (keys : List T) (v : T)
    (h : keys.any (fun k => C.same k v) = true) : (Set.put C keys v).length = keys.length := by
  induction keys with
  | nil => simp at h
  | cons k rest ih =>
    by_cases hk : C.same k v = true
    · simp [Set.put, hk]
    · have hrest : rest.any (fun k => C.same k v) = true := by
        simpa [List.any_cons, hk] using h
      simp [Set.put, hk, ih hrest]

theorem ToSet_loop_made {T : Type} (C : Comparable T) (rest : List T) :
    ∀ keys : List T, (∀ x ∈ rest, C.hashable x = true) →
      ToSet.loop C rest (Set.made keys) = some (Set.made (rest.foldl (Set.put C) keys)) := by
  induction rest with
  | nil => intro keys _; rfl
  | cons v rest ih =>
    intro keys h
    have hv := h v (List.mem_cons_self v rest)
    simp only [ToSet.loop, Set.store, hv, if_true, List.foldl_cons]
    exact ih _ (fun x hx => h x (List.mem_cons_of_mem v hx))

theorem ToSet_loop_none {T : Type} (C : Comparable T) (rest : List T) :
    ∀ set : Set T, (∃ x ∈ rest, C.hashable x = false) → ToSet.loop C rest set = none := by
  induction rest with
  | nil => intro set h; simp at h
  | cons v rest ih =>
    intro set h
    cases set with
    | nil => simp [ToSet.loop, Set.store]
    | made keys =>
      by_cases hv : C.hashable v = true
      · simp only [ToSet.loop, Set.store, hv, if_true]
        apply ih
        rcases h with ⟨x, hx, hxh⟩
        rcases List.mem_cons.mp hx with rfl | hx'
        · rw [hv] at hxh; exact absurd hxh (by simp)
        · exact ⟨x, hx', hxh⟩
      · simp [ToSet.loop, Set.store, hv]

theorem any_foldl_put {T : Type} (C : Comparable T) (rest : List T) (w : T) :
    ∀ keys : List T,
      (rest.foldl (Set.put C) keys).any (fun k => C.same k w)
        = (keys.any (fun k => C.same k w) || rest.any (fun x => C.same x w)) := by
  induction rest with
  | nil => intro keys; simp
  | cons v rest ih =>
    intro keys
    simp only [List.foldl_cons, ih, any_put, List.any_cons, Bool.or_assoc]

theorem fresh_congr {T : Type} (C : Comparable T) (keys keys' : List T) (rest : List T)
    (h : ∀ y, keys.any (fun k => C.same k y) = keys'.any (fun k => C.same k y)) :
    Set.fresh C keys rest = Set.fresh C keys' rest := by
  induction rest with
  | nil => rfl
  | cons x rest ih => simp only [Set.fresh, h x, ih]

theorem fresh_append_singleton {T : Type} (C : Comparable T) (keys : List T) (x : T)
    (hx : keys.any (fun k => C.same k x) = false) (rest : List T) :
    1 + Set.fresh C (keys ++ [x]) rest
      = (if rest.any (fun y => C.same y x) = true then 0 else 1) + Set.fresh C keys rest := by
  induction rest with
  | nil => simp [Set.fresh]
  | cons y ys ih =>
    by_cases hxy : C.same x y = true
    · have hyx : C.same y x = true := by rw [same_symm]; exact hxy
      have hkeys : keys.any (fun k => C.same k y) = false := by
        rw [← hx]
        congr 1
        funext k
        exact (same_congr_right C x y k hxy).symm
      have hys : ys.any (fun z => C.same z y) = ys.any (fun z => C.same z x) := by
        congr 1
        funext z
        exact (same_congr_right C x y z hxy).symm
      simp only [Set.fresh, List.any_append, List.any_cons, List.any_nil, hxy, hyx, hkeys, hys,
        Bool.or_true, Bool.or_false, Bool.true_or, if_true]
      omega
    · have hyx : C.same y x = false := by
        rw [same_symm]
        simpa using hxy
      have hxy' : C.same x y = false := by simpa using hxy
      simp only [Set.fresh, List.any_append, List.any_cons, List.any_nil, hxy', hyx,
        Bool.or_false, Bool.false_or]
      omega

theorem length_foldl_put {T : Type} (C : Comparable T) (rest : List T) :
    ∀ keys : List T,
      (rest.foldl (Set.put C) keys).length = keys.length + Set.fresh C keys rest := by
  induction rest with
  | nil => intro keys; simp [Set.fresh]
  | cons x rest ih =>
    intro keys
    simp only [List.foldl_cons, ih]
    cases hx : keys.any (fun k => C.same k x) with
    | true =>
      have hcongr : Set.fresh C (Set.put C keys x) rest = Set.fresh C keys rest := by
        apply fresh_congr
        intro y
        rw [any_put]
        cases hy : keys.any (fun k => C.same k y) with
        | true => rfl
        | false =>
          cases hxy : C.same x y with
          | false => rfl
          | true =>
            have hsame : keys.any (fun k => C.same k y) = keys.any (fun k => C.same k x) := by
              congr 1
              funext k
              exact (same_congr_right C x y k hxy).symm
            rw [hsame, hx] at hy
            exact absurd hy (by simp)
      rw [length_put_of_any C keys x hx, hcongr]
      simp [Set.fresh, hx]
    | false =>
      rw [put_of_not_any C keys x hx]
      have hB := fresh_append_singleton C keys x hx rest
      simp only [Set.fresh, hx, Bool.or_false, List.length_append, List.length_singleton]
      omega

theorem fresh_nil {T : Type} (C : Comparable T) (slice : List T) :
    Set.fresh C [] slice = distinctCount C slice := by
  induction slice with
  | nil => rfl
  | cons x rest ih => simp [Set.fresh, distinctCount, ih]

theorem same_eq_false_iff {T : Type} (C : Comparable T) (a b : T)
    (ha : C.hashable a = true) : C.same a b = false ↔ C.eq a b = some false := by
  constructor
  · exact eq_of_not_same C a b ha
  · intro h
    simp [Comparable.same, h]

theorem same_eq_true_iff {T : Type} (C : Comparable T) (a b : T) :
    C.same a b = true ↔ C.eq a b = some true := by
  simp [Comparable.same]

theorem put_eq_self {T : Type} (C : Comparable T) (keys : List T) (v : T)
    (hid : ∀ a b, C.eq a b = some true → a = b)
    (h : keys.any (fun k => C.same k v) = true) : Set.put C keys v = keys := by
  induction keys with
  | nil => simp at h
  | cons k rest ih =>
    by_cases hk : C.same k v = true
    · have hkv : k = v := hid k v ((same_eq_true_iff C k v).mp hk)
      rw [Set.put, if_pos hk, hkv]
    · have hrest : rest.any (fun k => C.same k v) = true := by
        simpa [List.any_cons, hk] using h
      simp [Set.put, hk, ih hrest]

theorem any_filter_not_same {T : Type} (C : Comparable T) (keys : List T) (v w : T) :
    (keys.filter (fun k => !C.same k v)).any (fun k => C.same k w)
      = (!C.same w v && keys.any (fun k => C.same k w)) := by
  induction keys with
  | nil => simp
  | cons k rest ih =>
    cases hkw : C.same k w with
    | true =>
      have hkv : C.same k v = C.same w v := same_congr_left C k w v hkw
      cases hwv : C.same w v with
      | true =>
        rw [hwv] at hkv ih
        simpa [List.filter_cons, hkv] using ih
      | false =>
        rw [hwv] at hkv
        simp [List.filter_cons, hkv, hkw]
    | false =>
      cases hkv : C.same k v with
      | true => simpa [List.filter_cons, hkv, hkw] using ih
      | false => simpa [List.filter_cons, hkv, hkw] using ih

theorem filter_not_same_of_not_any {T : Type} (C : Comparable T) (keys : List T) (v : T)
    (h : keys.any (fun k => C.same k v) = false) :
    keys.filter (fun k => !C.same k v) = keys := by
  rw [List.filter_eq_self]
  intro k hk
  have hkv : C.same k v = false := by
    cases hc : C.same k v with
    | false => rfl
    | true =>
      have : keys.any (fun k => C.same k v) = true := List.any_eq_true.mpr ⟨k, hk, hc⟩
      rw [h] at this
      exact absurd this (by simp)
  simp [hkv]

/-- C12, the claim as stated fails: `ToSet` on the slice `[]any{[]int{1}}`
stores a key that is not hashable, which panics, so there is no set whose `Has`
and size the claim could speak of. -/
theorem ToSet_panics_on_unhashable_elements :
    ToSet anyKeys [Dyn.ints [1]] = none ∧
      ¬ ∃ set, ToSet anyKeys [Dyn.ints [1]] = some set ∧
        (∀ v, Set.Has anyKeys set v = some true ↔
          Contains anyKeys [Dyn.ints [1]] v = some true) ∧
        set.len = distinctCount anyKeys [Dyn.ints [1]] := by
  have hnone : ToSet anyKeys [Dyn.ints [1]] = none := rfl
  refine ⟨hnone, ?_⟩
  rintro ⟨set, hset, _⟩
  rw [hnone] at hset
  exact absurd hset (by simp)

/-- C12 as amended: for every slice whose elements are all hashable, `ToSet`
returns a set, not nil, on which `Has` of a hashable value returns the boolean
that `Contains` returns for it on the slice, and whose number of entries is the
number of distinct elements of the slice, `==` telling them apart.  When an
element of the slice is not hashable `ToSet` panics, and `Has` of a value that
is not hashable panics on every set. -/
theorem ToSet_has_exactly_the_elements {T : Type} (C : Comparable T) (slice : List T) :
    ((∀ x ∈ slice, C.hashable x = true) →
        ∃ set, ToSet C slice = some set ∧ set ≠ Set.nil ∧
          (∀ v, C.hashable v = true →
            ∃ b, Set.Has C set v = some b ∧ Contains C slice v = some b) ∧
          set.len = distinctCount C slice) ∧
      ((∃ x ∈ slice, C.hashable x = false) → ToSet C slice = none) ∧
      (∀ (set : Slices.Set T) (v : T), C.hashable v = false → Set.Has C set v = none) := by
  refine ⟨?_, ToSet_loop_none C slice (Set.made []), ?_⟩
  · intro h
    refine ⟨Set.made (slice.foldl (Set.put C) []), ToSet_loop_made C slice [] h, by simp, ?_, ?_⟩
    · intro v hv
      refine ⟨slice.any (fun x => C.same x v), ?_, ?_⟩
      · simp [Set.Has, hv, any_foldl_put]
      · exact Contains_of_no_panic C slice v (fun x hx => C.eq_of_hashable x v (h x hx))
    · simp [Set.len, length_foldl_put, fresh_nil]
  · intro set v hv
    simp [Set.Has, hv]

/-- Witness of the amended C12 on the ints 1, 2, 2, 3, 1, all hashable, which
have 3 distinct elements; and on the floats: two NaN are two distinct elements
and two entries. -/
theorem ToSet_has_exactly_the_elements_witness :
    ((∀ x ∈ [1, 2, 2, 3, 1], intKeys.hashable x = true) ∧
      ∃ set, ToSet intKeys [1, 2, 2, 3, 1] = some set ∧ set ≠ Set.nil ∧
        (∀ v, intKeys.hashable v = true →
          ∃ b, Set.Has intKeys set v = some b ∧ Contains intKeys [1, 2, 2, 3, 1] v = some b) ∧
        set.len = distinctCount intKeys [1, 2, 2, 3, 1]) ∧
      distinctCount intKeys [1, 2, 2, 3, 1] = 3 ∧
      distinctCount floatKeys [F64.nan, F64.nan] = 2 ∧
      (ToSet floatKeys [F64.nan, F64.nan]).map Set.len = some 2 :=
  ⟨⟨by decide, (ToSet_has_exactly_the_elements intKeys [1, 2, 2, 3, 1]).1 (by decide)⟩,
    by decide, by decide, by decide⟩

/-- C13, the claim as stated fails on the nil `Set[int]`: `Set(1)` panics, so
there is no set after the call on which `Has(1)` is true, and the receiver,
still the nil map, has `Has(1)` false although 1 is the value that was to be
added. -/
theorem Set_on_the_nil_map_panics :
    Set.Set intKeys (Set.nil : Slices.Set Nat) 1 = none ∧
      Set.Has intKeys (Set.nil : Slices.Set Nat) 1 = some false ∧
      ¬ ∃ s', Set.Set intKeys (Set.nil : Slices.Set Nat) 1 = some s' ∧
        (Set.Has intKeys s' 1 = some true ↔
          (intKeys.eq 1 1 = some true ∨
            Set.Has intKeys (Set.nil : Slices.Set Nat) 1 = some true)) := by
  refine ⟨rfl, rfl, ?_⟩
  rintro ⟨s', hs, _⟩
  simp [Set.Set, Set.store] at hs

/-- C13 as amended: for every set `s` that is not the nil map and every hashable
value `v`, `s.Set(v)` returns and the set after the call is not nil; for every
hashable `w`, `Has(w)` is true after the call exactly when `w == v` or `Has(w)`
was true before; if `v` was present, the size and the result of `Has` on every
value are unchanged, and the set itself is unchanged when `==` holds only
between identical values.  The set returned by `NewSet` is not nil and has `Has`
false for every hashable value.  `Set(v)` panics on the nil map, and on every
set when the value is not hashable. -/
theorem Set_adds_the_value_to_a_made_set {T : Type} (C : Comparable T)
    (s : Slices.Set T) (v : T) (h : s ≠ Set.nil) (hv : C.hashable v = true) :
    (∃ s', Set.Set C s v = some s' ∧ s' ≠ Set.nil ∧
        (∀ w, C.hashable w = true →
          ∃ b b', Set.Has C s w = some b ∧ Set.Has C s' w = some b' ∧
            (b' = true ↔ (C.eq w v = some true ∨ b = true))) ∧
        (Set.Has C s v = some true →
          s'.len = s.len ∧ ∀ w, Set.Has C s' w = Set.Has C s w) ∧
        (Set.Has C s v = some true → (∀ a b, C.eq a b = some true → a = b) → s' = s)) ∧
      (NewSet : Slices.Set T) ≠ Set.nil ∧
      (∀ w, C.hashable w = true → Set.Has C (NewSet : Slices.Set T) w = some false) ∧
      Set.Set C (Set.nil : Slices.Set T) v = none ∧
      (∀ u, C.hashable u = false → Set.Set C s u = none) := by
  refine ⟨?_, by simp [NewSet], ?_, rfl, ?_⟩
  · cases s with
    | nil => exact absurd rfl h
    | made keys =>
      refine ⟨Set.made (Set.put C keys v), by simp [Set.Set, Set.store, hv], by simp, ?_, ?_, ?_⟩
      · intro w hw
        refine ⟨keys.any (fun k => C.same k w), (Set.put C keys v).any (fun k => C.same k w),
          by simp [Set.Has, hw], by simp [Set.Has, hw], ?_⟩
        rw [any_put, C.eq_symm w v, ← same_eq_true_iff]
        cases keys.any (fun k => C.same k w) <;> cases C.same v w <;> simp
      · intro hpresent
        have hany : keys.any (fun k => C.same k v) = true := by
          simpa [Set.Has, hv] using hpresent
        refine ⟨by simp [Set.len, length_put_of_any C keys v hany], ?_⟩
        intro w
        by_cases hw : C.hashable w = true
        · simp only [Set.Has, hw, if_true, any_put, Option.some.injEq]
          cases hvw : C.same v w with
          | false => simp
          | true =>
            have hsame : keys.any (fun k => C.same k w) = keys.any (fun k => C.same k v) := by
              congr 1
              funext k
              exact (same_congr_right C v w k hvw).symm
            rw [hsame, hany]
            rfl
        · simp [Set.Has, hw]
      · intro hpresent hid
        have hany : keys.any (fun k => C.same k v) = true := by
          simpa [Set.Has, hv] using hpresent
        rw [put_eq_self C keys v hid hany]
  · intro w hw
    simp [Set.Has, hw, NewSet]
  · intro u hu
    cases s with
    | nil => rfl
    | made keys => simp [Set.Set, Set.store, hu]

/-- Witness of the amended C13 at the set returned by `NewSet` and the int 1;
and on the floats: after `Set` of a NaN, `Has` of the NaN is false and the set
has one entry. -/
theorem Set_adds_the_value_to_a_made_set_witness :
    ((NewSet : Slices.Set Nat) ≠ Set.nil ∧ intKeys.hashable 1 = true ∧
      ∃ s', Set.Set intKeys (NewSet : Slices.Set Nat) 1 = some s' ∧ s' ≠ Set.nil ∧
        (∀ w, intKeys.hashable w = true →
          ∃ b b', Set.Has intKeys (NewSet : Slices.Set Nat) w = some b ∧
            Set.Has intKeys s' w = some b' ∧
            (b' = true ↔ (intKeys.eq w 1 = some true ∨ b = true))) ∧
        (Set.Has intKeys (NewSet : Slices.Set Nat) 1 = some true →
          s'.len = (NewSet : Slices.Set Nat).len ∧
            ∀ w, Set.Has intKeys s' w = Set.Has intKeys (NewSet : Slices.Set Nat) w) ∧
        (Set.Has intKeys (NewSet : Slices.Set Nat) 1 = some true →
          (∀ a b, intKeys.eq a b = some true → a = b) → s' = NewSet)) ∧
      (Set.Set intKeys (NewSet : Slices.Set Nat) 1).bind (fun s' => Set.Has intKeys s' 1)
        = some true ∧
      (Set.Set floatKeys (NewSet : Slices.Set F64) F64.nan).bind
          (fun s' => Set.Has floatKeys s' F64.nan) = some false ∧
      (Set.Set floatKeys (NewSet : Slices.Set F64) F64.nan).map Set.len = some 1 :=
  ⟨⟨by simp [NewSet], rfl,
    (Set_adds_the_value_to_a_made_set intKeys NewSet 1 (by simp [NewSet]) rfl).1⟩,
    by decide, by decide, by decide⟩

/-- C14, the claim as stated fails: `Delete` of the value `[]int{1}` held in an
interface value panics on the empty `Set[any]` and on the nil one, `delete`
hashing a key that is not hashable, so deleting this value, which is not a
member, does fail. -/
theorem Delete_panics_on_an_unhashable_value :
    Set.Delete anyKeys (NewSet : Slices.Set Dyn) (Dyn.ints [1]) = none ∧
      Set.Delete anyKeys (Set.nil : Slices.Set Dyn) (Dyn.ints [1]) = none ∧
      ¬ ∃ s', Set.Delete anyKeys (NewSet : Slices.Set Dyn) (Dyn.ints [1]) = some s' ∧
        s' = NewSet := by
  refine ⟨rfl, rfl, ?_⟩
  rintro ⟨s', hs, _⟩
  simp [Set.Delete, anyKeys] at hs

/-- C14 as amended: for every set `s`, the nil map included, and every hashable
value `v`, `s.Delete(v)` returns; for every hashable `w`, `Has(w)` is true after
the call exactly when `w == v` is false and `Has(w)` was true before; deleting a
value that is not a member leaves the set as it was; `Delete` on the nil map
leaves the nil map.  `Delete` of a value that is not hashable panics on every
set. -/
theorem Delete_removes_the_value_and_nothing_else {T : Type} (C : Comparable T)
    (s : Slices.Set T) (v : T) (hv : C.hashable v = true) :
    (∃ s', Set.Delete C s v = some s' ∧
        (∀ w, C.hashable w = true →
          ∃ b b', Set.Has C s w = some b ∧ Set.Has C s' w = some b' ∧
            (b' = true ↔ (C.eq w v = some false ∧ b = true))) ∧
        (Set.Has C s v = some false → s' = s)) ∧
      Set.Delete C (Set.nil : Slices.Set T) v = some Set.nil ∧
      (∀ u, C.hashable u = false → Set.Delete C s u = none) := by
  refine ⟨?_, by simp [Set.Delete, hv], ?_⟩
  · cases s with
    | nil =>
      refine ⟨Set.nil, by simp [Set.Delete, hv], ?_, fun _ => rfl⟩
      intro w hw
      exact ⟨false, false, by simp [Set.Has, hw], by simp [Set.Has, hw], by simp⟩
    | made keys =>
      refine ⟨Set.made (keys.filter (fun k => !C.same k v)), by simp [Set.Delete, hv], ?_, ?_⟩
      · intro w hw
        refine ⟨keys.any (fun k => C.same k w),
          (keys.filter (fun k => !C.same k v)).any (fun k => C.same k w),
          by simp [Set.Has, hw], by simp [Set.Has, hw], ?_⟩
        rw [any_filter_not_same, ← same_eq_false_iff C w v hw]
        cases C.same w v <;> simp
      · intro habsent
        have hany : keys.any (fun k => C.same k v) = false := by
          simpa [Set.Has, hv] using habsent
        rw [filter_not_same_of_not_any C keys v hany]
  · intro u hu
    simp [Set.Delete, hu]

/-- Witness of the amended C14 at the set holding the ints 1, 2, 3 and the
value 2. -/
theorem Delete_removes_the_value_and_nothing_else_witness :
    intKeys.hashable 2 = true ∧
      ∃ s', Set.Delete intKeys (Set.made [1, 2, 3]) 2 = some s' ∧
        (∀ w, intKeys.hashable w = true →
          ∃ b b', Set.Has intKeys (Set.made [1, 2, 3]) w = some b ∧
            Set.Has intKeys s' w = some b' ∧
            (b' = true ↔ (intKeys.eq w 2 = some false ∧ b = true))) ∧
        (Set.Has intKeys (Set.made [1, 2, 3]) 2 = some false → s' = Set.made [1, 2, 3]) :=
  ⟨rfl, (Delete_removes_the_value_and_nothing_else intKeys (Set.made [1, 2, 3]) 2 rfl).1⟩

end Slices

namespace LazyFeature

theorem cell_setCell_same {W T E : Type} (h : Heap W T E) (i : Which) (c : Cell T E) :
    (h.setCell i c).cell i = c := by
  cases i <;> rfl

theorem cell_setCell_other {W T E : Type} (h : Heap W T E) (i j : Which) (c : Cell T E)
    (hji : j ≠ i) : (h.setCell i c).cell j = h.cell j := by
  cases i <;> cases j <;> first | rfl | exact absurd rfl hji

theorem world_setCell {W T E : Type} (h : Heap W T E) (i : Which) (c : Cell T E) :
    (h.setCell i c).world = h.world := by
  cases i <;> rfl

theorem Frozen_refl {W T E : Type} (h : Heap W T E) : Heap.Frozen h h :=
  fun _ _ => rfl

theorem Frozen_trans {W T E : Type} (h₁ h₂ h₃ : Heap W T E)
    (h₁₂ : Heap.Frozen h₁ h₂) (h₂₃ : Heap.Frozen h₂ h₃) : Heap.Frozen h₁ h₃ := by
  intro j hj
  have e₁ := h₁₂ j hj
  have e₂ := h₂₃ j (by rw [e₁]; exact hj)
  rw [e₂, e₁]

theorem runWith_frozen {W T E : Type}
    (G : Which → Heap W T E → Option (Outcome (T × Option E)) × Heap W T E)
    (hG : ∀ i h, Heap.Frozen h (G i h).2) (s : Script W T E) :
    ∀ h, Heap.Frozen h (s.runWith G h).2 := by
  induction s with
  | ret r => intro h; exact Frozen_refl h
  | act f next ih =>
    intro h
    exact Frozen_trans _ _ _ (fun j _ => by cases j <;> rfl) (ih _)
  | look next ih => intro h; exact ih h.world h
  | get i next ih =>
    intro h
    rcases hg : G i h with ⟨r, h'⟩
    have hfr : Heap.Frozen h h' := by
      have := hG i h
      rw [hg] at this
      exact this
    cases r with
    | none => simpa [Script.runWith, hg] using hfr
    | some o =>
      simp only [Script.runWith, hg]
      exact Frozen_trans _ _ _ hfr (ih o h')

theorem Frozen_setCell_of_uncomputed {W T E : Type} (h h' : Heap W T E) (i : Which)
    (c c' : Cell T E) (hi : (h.cell i).phase = Phase.uncomputed)
    (hfr : Heap.Frozen (h.setCell i c) h') : Heap.Frozen h (h'.setCell i c') := by
  intro j hj
  have hji : j ≠ i := by
    intro hji
    rw [hji] at hj
    exact hj hi
  rw [cell_setCell_other _ _ _ _ hji]
  have := hfr j (by rw [cell_setCell_other _ _ _ _ hji]; exact hj)
  rw [this, cell_setCell_other _ _ _ _ hji]

theorem Frozen_of_setCell_of_uncomputed {W T E : Type} (h h' : Heap W T E) (i : Which)
    (c : Cell T E) (hi : (h.cell i).phase = Phase.uncomputed)
    (hfr : Heap.Frozen (h.setCell i c) h') : Heap.Frozen h h' := by
  intro j hj
  have hji : j ≠ i := by
    intro hji
    rw [hji] at hj
    exact hj hi
  have := hfr j (by rw [cell_setCell_other _ _ _ _ hji]; exact hj)
  rw [this, cell_setCell_other _ _ _ _ hji]

theorem Get_frozen {W T E : Type} (code : Which → Script W T E) :
    ∀ n i h, Heap.Frozen h (Heap.Get code n i h).2 := by
  intro n
  induction n with
  | zero =>
    intro i h
    cases hph : (h.cell i).phase <;> simp only [Heap.Get, hph] <;> exact Frozen_refl h
  | succ n ih =>
    intro i h
    cases hph : (h.cell i).phase with
    | done => simp only [Heap.Get, hph]; exact Frozen_refl h
    | computing => simp only [Heap.Get, hph]; exact Frozen_refl h
    | uncomputed =>
      have hrun := runWith_frozen (Heap.Get code n) ih (code i) (h.enter i)
      rcases hr : (code i).runWith (Heap.Get code n) (h.enter i) with ⟨r, h₂⟩
      rw [hr] at hrun
      simp only [Heap.Get, hph, hr]
      cases r with
      | none => exact Frozen_of_setCell_of_uncomputed h h₂ i _ hph hrun
      | some o =>
        cases o with
        | returned a =>
          rcases a with ⟨v, e⟩
          exact Frozen_setCell_of_uncomputed h h₂ i _ _ hph hrun
        | panicked => exact Frozen_setCell_of_uncomputed h h₂ i _ _ hph hrun

theorem Heap_Get_of_done {W T E : Type} (code : Which → Script W T E) (n : Nat) (i : Which)
    (h : Heap W T E) (hph : (h.cell i).phase = Phase.done) :
    Heap.Get code n i h = (some (Outcome.returned ((h.cell i).value, (h.cell i).err)), h) := by
  cases n <;> simp only [Heap.Get, hph]

theorem Heap_Get_of_computing {W T E : Type} (code : Which → Script W T E) (n : Nat)
    (i : Which) (h : Heap W T E) (hph : (h.cell i).phase = Phase.computing) :
    Heap.Get code n i h = (none, h) := by
  cases n <;> simp only [Heap.Get, hph]

theorem Heap_Get_done_of_some {W T E : Type} (code : Which → Script W T E) (n : Nat)
    (i : Which) (h : Heap W T E) (hsome : (Heap.Get code n i h).1 ≠ none) :
    ((Heap.Get code n i h).2.cell i).phase = Phase.done := by
  cases hph : (h.cell i).phase with
  | done => rw [Heap_Get_of_done code n i h hph]; exact hph
  | computing =>
    rw [Heap_Get_of_computing code n i h hph] at hsome
    exact absurd rfl hsome
  | uncomputed =>
    cases n with
    | zero =>
      simp only [Heap.Get, hph] at hsome
      exact absurd rfl hsome
    | succ n =>
      rcases hr : (code i).runWith (Heap.Get code n) (h.enter i) with ⟨r, h₂⟩
      simp only [Heap.Get, hph, hr] at hsome ⊢
      cases r with
      | none => exact absurd rfl hsome
      | some o =>
        cases o with
        | returned a =>
          rcases a with ⟨v, e⟩
          simp only [Heap.settle, cell_setCell_same]
        | panicked => simp only [Heap.settle, cell_setCell_same]

theorem runWith_of_callsNoGet {W T E : Type}
    (G : Which → Heap W T E → Option (Outcome (T × Option E)) × Heap W T E)
    (s : Script W T E) (hs : s.callsNoGet) :
    ∀ h, (s.runWith G h).1 ≠ none ∧ ∀ j, (s.runWith G h).2.cell j = h.cell j := by
  induction s with
  | ret r => intro h; exact ⟨by simp [Script.runWith], fun _ => rfl⟩
  | act f next ih =>
    intro h
    have := ih hs { first := h.first, second := h.second, world := f h.world }
    refine ⟨this.1, fun j => ?_⟩
    rw [Script.runWith, this.2 j]
    cases j <;> rfl
  | look next ih => intro h; exact ih h.world (hs h.world) h
  | get i next _ => exact absurd hs (by simp [Script.callsNoGet])

theorem Heap_Get_other_of_callsNoGet {W T E : Type} (code : Which → Script W T E) (n : Nat)
    (i j : Which) (h : Heap W T E) (hs : (code i).callsNoGet) (hji : j ≠ i) :
    (Heap.Get code n i h).2.cell j = h.cell j := by
  cases hph : (h.cell i).phase with
  | done => rw [Heap_Get_of_done code n i h hph]
  | computing => rw [Heap_Get_of_computing code n i h hph]
  | uncomputed =>
    cases n with
    | zero => simp only [Heap.Get, hph]
    | succ n =>
      have hrun := (runWith_of_callsNoGet (Heap.Get code n) (code i) hs (h.enter i)).2 j
      rcases hr : (code i).runWith (Heap.Get code n) (h.enter i) with ⟨r, h₂⟩
      rw [hr, Heap.enter, cell_setCell_other _ _ _ _ hji] at hrun
      simp only [Heap.Get, hph, hr]
      cases r with
      | none => exact hrun
      | some o =>
        cases o with
        | returned a =>
          rcases a with ⟨v, e⟩
          simp only [Heap.settle, cell_setCell_other _ _ _ _ hji, hrun]
        | panicked => simp only [Heap.settle, cell_setCell_other _ _ _ _ hji, hrun]

theorem cell_of_world {W T E : Type} (h : Heap W T E) (w : W) (j : Which) :
    ({ first := h.first, second := h.second, world := w } : Heap W T E).cell j = h.cell j := by
  cases j <;> rfl

theorem Heap_Get_succ {W T E : Type} (code : Which → Script W T E) (n : Nat) (i : Which)
    (h : Heap W T E) (hph : (h.cell i).phase = Phase.uncomputed) :
    Heap.Get code (n + 1) i h
      = Heap.settle i ((code i).runWith (Heap.Get code n) (h.enter i)) := by
  rw [Heap.Get]
  simp only [hph]

theorem started_of_Frozen {W T E : Type} (h h' : Heap W T E) (hfr : Heap.Frozen h h')
    (j : Which) (hj : (h.cell j).phase ≠ Phase.uncomputed) :
    (h'.cell j).phase ≠ Phase.uncomputed := by
  rw [hfr j hj]
  exact hj

theorem Heap_Get_depth_zero {W T E : Type} (code : Which → Script W T E) (n : Nat) (i : Which)
    (h : Heap W T E) (hall : ∀ j, (h.cell j).phase ≠ Phase.uncomputed) :
    Heap.Get code n i h = Heap.Get code 0 i h := by
  cases hph : (h.cell i).phase with
  | done => rw [Heap_Get_of_done code n i h hph, Heap_Get_of_done code 0 i h hph]
  | computing => rw [Heap_Get_of_computing code n i h hph, Heap_Get_of_computing code 0 i h hph]
  | uncomputed => exact absurd hph (hall i)

theorem runWith_depth_zero {W T E : Type} (code : Which → Script W T E) (n : Nat)
    (s : Script W T E) :
    ∀ h : Heap W T E, (∀ j, (h.cell j).phase ≠ Phase.uncomputed) →
      s.runWith (Heap.Get code n) h = s.runWith (Heap.Get code 0) h := by
  induction s with
  | ret r => intro h _; rfl
  | act f next ih =>
    intro h hall
    simp only [Script.runWith]
    exact ih _ (fun j => by rw [cell_of_world]; exact hall j)
  | look next ih =>
    intro h hall
    simp only [Script.runWith]
    exact ih h.world h hall
  | get i next ih =>
    intro h hall
    simp only [Script.runWith, Heap_Get_depth_zero code n i h hall]
    rcases hg : Heap.Get code 0 i h with ⟨r, h'⟩
    cases r with
    | none => rfl
    | some o =>
      have hfr := Get_frozen code 0 i h
      rw [hg] at hfr
      exact ih o h' (fun j => started_of_Frozen h h' hfr j (hall j))

theorem Heap_Get_depth_one {W T E : Type} (code : Which → Script W T E) (n : Nat) (i : Which)
    (h : Heap W T E) (hone : ∃ j, (h.cell j).phase ≠ Phase.uncomputed) :
    Heap.Get code (n + 1) i h = Heap.Get code 1 i h := by
  cases hph : (h.cell i).phase with
  | done => rw [Heap_Get_of_done code _ i h hph, Heap_Get_of_done code 1 i h hph]
  | computing => rw [Heap_Get_of_computing code _ i h hph, Heap_Get_of_computing code 1 i h hph]
  | uncomputed =>
    rcases hone with ⟨k, hk⟩
    have hki : k ≠ i := by
      intro hki
      rw [hki] at hk
      exact hk hph
    have hall : ∀ j, ((h.enter i).cell j).phase ≠ Phase.uncomputed := by
      intro j
      by_cases hji : j = i
      · rw [hji, Heap.enter, cell_setCell_same]
        simp
      · rw [Heap.enter, cell_setCell_other _ _ _ _ hji]
        have hjk : j = k := by
          cases i <;> cases j <;> cases k <;>
            first | rfl | exact absurd rfl hji | exact absurd rfl hki
        rw [hjk]
        exact hk
    rw [Heap_Get_succ code n i h hph, Heap_Get_succ code 0 i h hph,
      runWith_depth_zero code n (code i) _ hall]

theorem runWith_depth_one {W T E : Type} (code : Which → Script W T E) (n : Nat)
    (s : Script W T E) :
    ∀ h : Heap W T E, (∃ j, (h.cell j).phase ≠ Phase.uncomputed) →
      s.runWith (Heap.Get code (n + 1)) h = s.runWith (Heap.Get code 1) h := by
  induction s with
  | ret r => intro h _; rfl
  | act f next ih =>
    intro h hone
    simp only [Script.runWith]
    apply ih
    rcases hone with ⟨k, hk⟩
    exact ⟨k, by rw [cell_of_world]; exact hk⟩
  | look next ih =>
    intro h hone
    simp only [Script.runWith]
    exact ih h.world h hone
  | get i next ih =>
    intro h hone
    simp only [Script.runWith, Heap_Get_depth_one code n i h hone]
    rcases hg : Heap.Get code 1 i h with ⟨r, h'⟩
    cases r with
    | none => rfl
    | some o =>
      have hfr := Get_frozen code 1 i h
      rw [hg] at hfr
      rcases hone with ⟨k, hk⟩
      exact ih o h' ⟨k, started_of_Frozen h h' hfr k hk⟩

theorem Heap_Get_depth_two {W T E : Type} (code : Which → Script W T E) (n : Nat) (i : Which)
    (h : Heap W T E) : Heap.Get code (n + 2) i h = Heap.Get code 2 i h := by
  cases hph : (h.cell i).phase with
  | done => rw [Heap_Get_of_done code _ i h hph, Heap_Get_of_done code 2 i h hph]
  | computing => rw [Heap_Get_of_computing code _ i h hph, Heap_Get_of_computing code 2 i h hph]
  | uncomputed =>
    have hone : ∃ j, ((h.enter i).cell j).phase ≠ Phase.uncomputed :=
      ⟨i, by rw [Heap.enter, cell_setCell_same]; simp⟩
    rw [Heap_Get_succ code (n + 1) i h hph, Heap_Get_succ code 1 i h hph,
      runWith_depth_one code n (code i) _ hone]

theorem started_setCell_of_uncomputed {W T E : Type} (h : Heap W T E) (i : Which)
    (c : Cell T E) (hi : (h.cell i).phase = Phase.uncomputed)
    (hc : c.phase ≠ Phase.uncomputed) : (h.setCell i c).started = h.started + 1 := by
  cases i
  · have hi' : h.first.phase = Phase.uncomputed := hi
    simp only [Heap.started, Heap.setCell, hi', if_neg hc, if_true]
    omega
  · have hi' : h.second.phase = Phase.uncomputed := hi
    simp only [Heap.started, Heap.setCell, hi', if_neg hc, if_true]

theorem started_setCell_of_started {W T E : Type} (h : Heap W T E) (i : Which)
    (c : Cell T E) (hi : (h.cell i).phase ≠ Phase.uncomputed)
    (hc : c.phase ≠ Phase.uncomputed) : (h.setCell i c).started = h.started := by
  cases i
  · have hi' : h.first.phase ≠ Phase.uncomputed := hi
    simp only [Heap.started, Heap.setCell, if_neg hi', if_neg hc]
  · have hi' : h.second.phase ≠ Phase.uncomputed := hi
    simp only [Heap.started, Heap.setCell, if_neg hi', if_neg hc]

theorem Counted_refl {W T E : Type} (h : Heap (W × Nat) T E) : Heap.Counted h h :=
  ⟨Frozen_refl h, rfl⟩

theorem Counted_trans {W T E : Type} (h₁ h₂ h₃ : Heap (W × Nat) T E)
    (h₁₂ : Heap.Counted h₁ h₂) (h₂₃ : Heap.Counted h₂ h₃) : Heap.Counted h₁ h₃ := by
  refine ⟨Frozen_trans _ _ _ h₁₂.1 h₂₃.1, ?_⟩
  have e₁ := h₁₂.2
  have e₂ := h₂₃.2
  omega

theorem runWith_counted {W T E : Type}
    (G : Which → Heap (W × Nat) T E → Option (Outcome (T × Option E)) × Heap (W × Nat) T E)
    (hG : ∀ i h, Heap.Counted h (G i h).2) (s : Script W T E) :
    ∀ h, Heap.Counted h ((Script.lift s).runWith G h).2 := by
  induction s with
  | ret r => intro h; exact Counted_refl h
  | act f next ih =>
    intro h
    simp only [Script.lift, Script.runWith]
    refine Counted_trans _ _ _ ⟨fun j _ => cell_of_world h _ j, ?_⟩ (ih _)
    simp [Heap.started]
  | look next ih =>
    intro h
    simp only [Script.lift, Script.runWith]
    exact ih h.world.1 h
  | get i next ih =>
    intro h
    rcases hg : G i h with ⟨r, h'⟩
    have hc : Heap.Counted h h' := by
      have := hG i h
      rw [hg] at this
      exact this
    cases r with
    | none => simpa [Script.lift, Script.runWith, hg] using hc
    | some o =>
      simp only [Script.lift, Script.runWith, hg]
      exact Counted_trans _ _ _ hc (ih o h')

theorem Counted_setCell_done {W T E : Type} (h h₂ : Heap (W × Nat) T E) (i : Which)
    (c : Cell T E) (hc : Heap.Counted h h₂) (hi : (h.cell i).phase = Phase.uncomputed)
    (hi₂ : (h₂.cell i).phase ≠ Phase.uncomputed) (hcp : c.phase ≠ Phase.uncomputed) :
    Heap.Counted h (h₂.setCell i c) := by
  refine ⟨?_, ?_⟩
  · intro j hj
    have hji : j ≠ i := by
      intro hji
      rw [hji] at hj
      exact hj hi
    rw [cell_setCell_other _ _ _ _ hji]
    exact hc.1 j hj
  · rw [world_setCell, started_setCell_of_started h₂ i c hi₂ hcp]
    exact hc.2

theorem Counted_bump {W T E : Type} (h : Heap (W × Nat) T E) (i : Which) (c : Cell T E)
    (hph : (h.cell i).phase = Phase.uncomputed) (hc : c.phase ≠ Phase.uncomputed) :
    Heap.Counted h
      ({ first := (h.setCell i c).first, second := (h.setCell i c).second,
         world := ((h.setCell i c).world.1, (h.setCell i c).world.2 + 1) } :
        Heap (W × Nat) T E) := by
  refine ⟨?_, ?_⟩
  · intro j hj
    have hji : j ≠ i := by
      intro hji
      rw [hji] at hj
      exact hj hph
    rw [cell_of_world, cell_setCell_other _ _ _ _ hji]
  · have hst := started_setCell_of_uncomputed h i c hph hc
    simp only [Heap.started] at hst ⊢
    rw [world_setCell]
    omega

theorem Get_counted_finish {W T E : Type} (h hb : Heap (W × Nat) T E) (i : Which)
    (G : Which → Heap (W × Nat) T E → Option (Outcome (T × Option E)) × Heap (W × Nat) T E)
    (hG : ∀ i h, Heap.Counted h (G i h).2) (s : Script W T E)
    (hph : (h.cell i).phase = Phase.uncomputed) (hstart : Heap.Counted h hb)
    (hcomp : (hb.cell i).phase ≠ Phase.uncomputed) :
    Heap.Counted h (Heap.settle i ((Script.lift s).runWith G hb)).2 := by
  have hrun := runWith_counted G hG s hb
  have hboth := Counted_trans _ _ _ hstart hrun
  have hcomputing := started_of_Frozen _ _ hrun.1 i hcomp
  rcases hr : (Script.lift s).runWith G hb with ⟨r, h₂⟩
  rw [hr] at hboth hcomputing
  cases r with
  | none => exact hboth
  | some o =>
    cases o with
    | returned a =>
      rcases a with ⟨v, e⟩
      exact Counted_setCell_done h h₂ i _ hboth hph hcomputing (by simp)
    | panicked => exact Counted_setCell_done h h₂ i _ hboth hph hcomputing (by simp)

theorem runWith_counted_script {W T E : Type}
    (G : Which → Heap (W × Nat) T E → Option (Outcome (T × Option E)) × Heap (W × Nat) T E)
    (s : Script W T E) (h : Heap (W × Nat) T E) :
    (Script.counted s).runWith G h
      = (Script.lift s).runWith G
          { first := h.first, second := h.second, world := (h.world.1, h.world.2 + 1) } :=
  rfl

theorem Get_counted {W T E : Type} (s : Which → Script W T E)
    (code : Which → Script (W × Nat) T E) (hcode : ∀ i, code i = (s i).counted) :
    ∀ n i h, Heap.Counted h (Heap.Get code n i h).2 := by
  intro n
  induction n with
  | zero =>
    intro i h
    cases hph : (h.cell i).phase <;> simp only [Heap.Get, hph] <;> exact Counted_refl h
  | succ n ih =>
    intro i h
    cases hph : (h.cell i).phase with
    | done => rw [Heap_Get_of_done _ _ i h hph]; exact Counted_refl h
    | computing => rw [Heap_Get_of_computing _ _ i h hph]; exact Counted_refl h
    | uncomputed =>
      rw [Heap_Get_succ _ n i h hph, hcode i, runWith_counted_script]
      exact Get_counted_finish h _ i _ ih (s i) hph
        (Counted_bump h i (Cell.mk (h.cell i).value (h.cell i).err Phase.computing) hph
          (by simp))
        (by
          rw [cell_of_world, Heap.enter,
            cell_setCell_same h i (Cell.mk (h.cell i).value (h.cell i).err Phase.computing)]
          simp)

theorem run_counted {W T E : Type} (s : Which → Script W T E) (calls : List Which) :
    ∀ h : Heap (W × Nat) T E,
      none ∉ (Heap.run (fun i => (s i).counted) calls h).1 →
      Heap.Counted h (Heap.run (fun i => (s i).counted) calls h).2 ∧
        ∀ i ∈ calls,
          (((Heap.run (fun i => (s i).counted) calls h).2).cell i).phase = Phase.done := by
  induction calls with
  | nil =>
    intro h _
    exact ⟨Counted_refl h, fun i hi => absurd hi (List.not_mem_nil i)⟩
  | cons i rest ih =>
    intro h hend
    have hc := Get_counted s (fun i => (s i).counted) (fun _ => rfl) 2 i h
    have hd := Heap_Get_done_of_some (fun i => (s i).counted) 2 i h
    rcases hg : Heap.Get (fun i => (s i).counted) 2 i h with ⟨r, h'⟩
    rw [hg] at hc hd
    cases r with
    | none =>
      simp only [Heap.run, hg] at hend
      exact absurd (List.mem_singleton.mpr rfl) hend
    | some o =>
      simp only [Heap.run, hg] at hend ⊢
      have hrest := ih h' (fun hmem => hend (List.mem_cons_of_mem _ hmem))
      refine ⟨Counted_trans _ _ _ hc hrest.1, ?_⟩
      intro j hj
      rcases List.mem_cons.mp hj with rfl | hj'
      · have hdone : (h'.cell j).phase = Phase.done := hd (by simp)
        rw [hrest.1.1 j (by rw [hdone]; simp)]
        exact hdone
      · exact hrest.2 j hj'

theorem world_Get_of_closure {W T E : Type} (code : Which → Script W T E) (n : Nat)
    (i : Which) (h : Heap W T E) (c : W → Outcome (T × Option E) × W)
    (hcode : code i = Script.ofClosure c) :
    (code i).runWith (Heap.Get code n) (h.enter i)
      = (some (c h.world).1,
          { first := (h.enter i).first, second := (h.enter i).second,
            world := (c h.world).2 }) := by
  rw [hcode]
  simp only [Script.ofClosure, Script.runWith, Heap.enter, world_setCell]

/-- The heap model and the model of one instance agree.  When the computation of
the instance `i` is a closure `c` over the world alone and the instance is not
computing, `Get` on the heap gives the outcome that `LazyFuture.Get` gives on
the instance with the same fields, leaves the instance done with the fields
`LazyFuture.Get` leaves, leaves the world `LazyFuture.Get` leaves, and leaves
the other instance as it was. -/
theorem Heap_Get_agrees_with_Get {W T E : Type} (code : Which → Script W T E) (n : Nat)
    (i : Which) (h : Heap W T E) (c : W → Outcome (T × Option E) × W)
    (hcode : code i = Script.ofClosure c) (hph : (h.cell i).phase ≠ Phase.computing) :
    (Heap.Get code (n + 1) i h).1
        = some ((LazyFuture.mk c (h.cell i).value (h.cell i).err
            (Once.mk (decide ((h.cell i).phase = Phase.done)))).Get h.world).1 ∧
      (Heap.Get code (n + 1) i h).2.cell i
        = Cell.mk
            ((LazyFuture.mk c (h.cell i).value (h.cell i).err
              (Once.mk (decide ((h.cell i).phase = Phase.done)))).Get h.world).2.1.value
            ((LazyFuture.mk c (h.cell i).value (h.cell i).err
              (Once.mk (decide ((h.cell i).phase = Phase.done)))).Get h.world).2.1.err
            Phase.done ∧
      (Heap.Get code (n + 1) i h).2.world
        = ((LazyFuture.mk c (h.cell i).value (h.cell i).err
            (Once.mk (decide ((h.cell i).phase = Phase.done)))).Get h.world).2.2 ∧
      ∀ j, j ≠ i → (Heap.Get code (n + 1) i h).2.cell j = h.cell j := by
  cases hp : (h.cell i).phase with
  | computing => exact absurd hp hph
  | done =>
    rw [Heap_Get_of_done code _ i h hp, Get_of_done _ _ (by simp)]
    refine ⟨rfl, ?_, rfl, fun _ _ => rfl⟩
    rw [← hp]
  | uncomputed =>
    rw [Heap_Get_succ code n i h hp, world_Get_of_closure code n i h c hcode]
    rcases hc : (c h.world).1 with ⟨v, e⟩ | _
    · rw [Get_fresh_returned _ _ v e (by simp) hc]
      simp only [Heap.settle, cell_setCell_same, world_setCell]
      refine ⟨trivial, trivial, trivial, fun j hji => ?_⟩
      rw [cell_setCell_other _ _ _ _ hji, cell_of_world, Heap.enter,
        cell_setCell_other _ _ _ _ hji]
    · rw [Get_fresh_panicked _ _ (by simp) hc]
      simp only [Heap.settle, cell_setCell_same, world_setCell, cell_of_world, Heap.enter]
      refine ⟨trivial, trivial, trivial, fun j hji => ?_⟩
      rw [cell_setCell_other _ _ _ _ hji, cell_of_world,
        cell_setCell_other _ _ _ _ hji]

theorem started_NewHeap {W T E : Type} [Inhabited T] (w : W) :
    (NewHeap w : Heap W T E).started = 0 := by
  simp [Heap.started, NewHeap]

theorem started_of_both_done {W T E : Type} (h : Heap W T E)
    (h₁ : (h.cell Which.first).phase = Phase.done)
    (h₂ : (h.cell Which.second).phase = Phase.done) : h.started = 2 := by
  have e₁ : h.first.phase = Phase.done := h₁
  have e₂ : h.second.phase = Phase.done := h₂
  simp [Heap.started, e₁, e₂]

/-- C7, the claim as stated fails: in the program `relay` the computation of the
first instance calls `Get` on the second.  On the fresh heap the second instance
is uncomputed with value 0; one `Get` on the first instance returns (1, nil) and
leaves the second instance done with the cached pair (2, nil): a `Get` call on
one instance has changed the state and the cached pair of the other. -/
theorem Get_on_one_instance_completes_the_other :
    (NewHeap () : Heap Unit Nat String).cell Which.second = Cell.mk 0 none Phase.uncomputed ∧
      (Heap.Get relay 2 Which.first (NewHeap ())).1 = some (Outcome.returned (1, none)) ∧
      (Heap.Get relay 2 Which.first (NewHeap ())).2.cell Which.second
        = Cell.mk 2 none Phase.done ∧
      (Heap.Get relay 2 Which.first (NewHeap ())).2.cell Which.second
        ≠ (NewHeap () : Heap Unit Nat String).cell Which.second := by
  refine ⟨rfl, rfl, rfl, ?_⟩
  have e₁ : (Heap.Get relay 2 Which.first (NewHeap ())).2.cell Which.second
      = Cell.mk 2 none Phase.done := rfl
  have e₂ : (NewHeap () : Heap Unit Nat String).cell Which.second
      = Cell.mk 0 none Phase.uncomputed := rfl
  rw [e₁, e₂]
  simp

/-- C7 as amended: two instances are built whose computations each add one to a
shared counter standing at `k` and then go on as any computation, which may call
`Get` on either instance.  After any sequence of `Get` calls on the two, in any
interleaving, in which each instance is called at least once and every call
comes back, the counter stands at `k + 2`.  For the computations `code` of any
program and any heap: a `Get` on an instance that is done returns the cached
pair and leaves the whole heap as it was; a `Get` on either instance leaves an
instance that is done as it was; a `Get` on an instance whose computation makes
no call of `Get` leaves the other instance as it was.  A nesting depth beyond 2
changes nothing. -/
theorem two_instances_meet_only_through_computations {W T E : Type} [Inhabited T]
    (s : Which → Script W T E) (w : W) (k : Nat) (calls : List Which)
    (h₁ : Which.first ∈ calls) (h₂ : Which.second ∈ calls)
    (hend : none ∉ (Heap.run (fun i => (s i).counted) calls (NewHeap (w, k))).1) :
    (Heap.run (fun i => (s i).counted) calls (NewHeap (w, k))).2.world.2 = k + 2 ∧
      (∀ (code : Which → Script (W × Nat) T E) (h : Heap (W × Nat) T E) (i j : Which),
        ((h.cell i).phase = Phase.done →
          Heap.Get code 2 i h
            = (some (Outcome.returned ((h.cell i).value, (h.cell i).err)), h)) ∧
        ((h.cell j).phase = Phase.done → (Heap.Get code 2 i h).2.cell j = h.cell j) ∧
        (j ≠ i → (code i).callsNoGet → (Heap.Get code 2 i h).2.cell j = h.cell j)) ∧
      (∀ (code : Which → Script (W × Nat) T E) (n : Nat) (i : Which) (h : Heap (W × Nat) T E),
        Heap.Get code (n + 2) i h = Heap.Get code 2 i h) := by
  refine ⟨?_, ?_, fun code n i h => Heap_Get_depth_two code n i h⟩
  · have hrun := run_counted s calls (NewHeap (w, k)) hend
    have hcount := hrun.1.2
    rw [started_NewHeap, started_of_both_done _ (hrun.2 _ h₁) (hrun.2 _ h₂)] at hcount
    have hk : (NewHeap (w, k) : Heap (W × Nat) T E).world.2 = k := rfl
    omega
  · intro code h i j
    refine ⟨Heap_Get_of_done code 2 i h, ?_, ?_⟩
    · intro hj
      exact Get_frozen code 2 i h j (by rw [hj]; simp)
    · intro hji hs
      exact Heap_Get_other_of_callsNoGet code 2 i j h hs hji

/-- Witness of the amended C7 at the program `relay`, the counter starting at
10, with the calls first, second, first, all of which come back. -/
theorem two_instances_meet_only_through_computations_witness :
    Which.first ∈ [Which.first, Which.second, Which.first] ∧
      Which.second ∈ [Which.first, Which.second, Which.first] ∧
      none ∉ (Heap.run (fun i => (relay i).counted) [Which.first, Which.second, Which.first]
        (NewHeap ((), 10))).1 ∧
      (Heap.run (fun i => (relay i).counted) [Which.first, Which.second, Which.first]
        (NewHeap ((), 10))).2.world.2 = 10 + 2 :=
  ⟨by decide, by decide, by decide,
    (two_instances_meet_only_through_computations relay () 10
      [Which.first, Which.second, Which.first] (by decide) (by decide) (by decide)).1⟩

end LazyFeature
